import Mathlib

/-!
Verification of the rademacher-prod numeric engine against its specification.

The Rust sources are shallowly embedded here.  `f64` values are modelled as
exact rationals (`ℚ`); the two irrational library functions that the code
applies to floats (`f64::sqrt`, used as `powf(0.5)`, and `f64::exp`) are
abstracted as parameters (`NumOps`), so every theorem quantifies over them
unless a concrete instance is needed.  `u128`/`usize` values are modelled as
`ℕ`, `i128`/`i32` as `ℤ`.  Rust's `as u128`/`as usize` casts of a
non-negative float truncate toward zero and saturate at zero for negative
inputs, which is `Int.toNat ∘ Int.floor` on `ℚ`; the `ceil` calls in the
table lookup become `Int.toNat ∘ Int.ceil`.  Panics (out-of-range indexing,
`unwrap`) are modelled with `Option` where a claim is about them.
-/

namespace Rademacher

/-- Numeric library operations on floats whose exact values are irrational
(`f64::sqrt` / `powf(0.5)` and `f64::exp`); the engine's control flow is
independent of their exact values, so they are parameters of the embedding. -/
structure NumOps where
  sqrt : ℚ → ℚ
  exp : ℚ → ℚ

/-- Rust `restriction.rs`: `struct Interval { lb: f64, ub: f64 }`. -/
structure Interval where
  lb : ℚ
  ub : ℚ
deriving DecidableEq

/-- Rust `restriction.rs`: `Interval::UNIT = Interval { lb: 0.0, ub: 1.0 }`. -/
def Interval.UNIT : Interval := ⟨0, 1⟩

/-- Rust `restriction.rs`: `intersect_inplace` sets `lb = lb.max(other.lb)` and
`ub = ub.min(other.ub)`; rendered functionally, the mutated receiver is the
returned value. -/
def Interval.intersect (a b : Interval) : Interval :=
  ⟨max a.lb b.lb, min a.ub b.ub⟩

/-- Rust `restriction.rs`: `enum Restriction`. -/
inductive Restriction where
  | InitialSumUpperBound (sum_depth : ℕ) (bound : ℚ)
  | InitialSumLowerBound (sum_depth : ℕ) (bound : ℚ)
  | MidSumUpperBound (start finish : ℕ) (bound : ℚ)
  | Bounds (index : ℕ) (interval : Interval)
deriving DecidableEq

/-- Rust `prover.rs`: `struct Seq { numerators: Vec<u128>, denominator: u128 }`. -/
structure Seq where
  numerators : List ℕ
  denominator : ℕ
deriving DecidableEq

/-- Rust `prover.rs`: `Seq::new(numerator, denominator, max_depth)`. -/
def Seq.new (numerator denominator : ℕ) (max_depth : ℕ) : Seq :=
  ⟨List.replicate max_depth numerator, denominator⟩

/-- Rust `prover.rs`: `Seq::set` writes `numerators[index]`.  `List.set` is a
no-op out of range where the Rust panics; theorems that depend on this keep
an explicit length hypothesis. -/
def Seq.set (s : Seq) (index numerator : ℕ) : Seq :=
  ⟨s.numerators.set index numerator, s.denominator⟩

/-- Rust `prover.rs`: `Seq::get_min_numerator`. -/
def Seq.get_min_numerator (s : Seq) (index : ℕ) : ℕ :=
  s.numerators.getD index 0

/-- Rust `prover.rs`: `Seq::get_min`, the lower endpoint `n/D` of interval `index`. -/
def Seq.get_min (s : Seq) (index : ℕ) : ℚ :=
  (s.numerators.getD index 0 : ℚ) / (s.denominator : ℚ)

/-- Rust `prover.rs`: `Seq::get_max`, the upper endpoint `(n+1)/D` of interval `index`. -/
def Seq.get_max (s : Seq) (index : ℕ) : ℚ :=
  ((s.numerators.getD index 0 : ℚ) + 1) / (s.denominator : ℚ)

/-- Rust `prover.rs`: `Seq::min_variance = (Σ n_i^2) / D^2`. -/
def Seq.min_variance (s : Seq) : ℚ :=
  (((s.numerators.map (fun x => x * x)).sum : ℕ) : ℚ) /
    ((s.denominator * s.denominator : ℕ) : ℚ)

/-- Rust `prover.rs`: `Seq::max_variance = (Σ (n_i+1)^2) / D^2`. -/
def Seq.max_variance (s : Seq) : ℚ :=
  (((s.numerators.map (fun x => (x + 1) * (x + 1))).sum : ℕ) : ℚ) /
    ((s.denominator * s.denominator : ℕ) : ℚ)

/-- Rust `prawitz.rs`: `struct Bounder`, the persisted DP table with its three
shape parameters. -/
structure Bounder where
  bounds : List (List ℚ)
  coef_gran : ℕ
  thresh_gran : ℕ
  max_bound : ℕ
deriving DecidableEq

/-- Rust `prawitz.rs`: `Bounder::new_manual`. -/
def Bounder.new_manual (bounds : List (List ℚ)) (coef_gran thresh_gran max_bound : ℕ) :
    Bounder :=
  ⟨bounds, coef_gran, thresh_gran, max_bound⟩

/-- Rust `prawitz.rs`: `D_ITERATIONS`, the fixed number of refinement sweeps. -/
def D_ITERATIONS : ℕ := 1000

/-- Rust `prawitz.rs`: `Bounder::get_internal` on the raw table data.
`(x.ceil() as usize)` truncates-and-saturates, i.e. `Int.toNat ∘ Int.ceil`;
the `.max(0)` on the threshold index is absorbed by the same saturation, as
in the Rust cast.  Row access `bounds[a_scaled]` is total here (`getD`),
which agrees with the Rust for every non-empty table. -/
def getInternal (bounds : List (List ℚ)) (coef_gran thresh_gran max_bound : ℕ)
    (a cutoff : ℚ) : ℚ :=
  let a_scaled : ℕ := min (Int.toNat ⌈a * (coef_gran : ℚ)⌉) (bounds.length - 1)
  let cutoff_scaled : ℕ := Int.toNat ⌈cutoff * (thresh_gran : ℚ) + (max_bound : ℚ)⌉
  let row := bounds.getD a_scaled []
  if row.length ≤ cutoff_scaled then 0 else row.getD cutoff_scaled 0

/-- Rust `prawitz.rs`: the nested `get_bernstein` helper of `Bounder::get`,
`1 - exp(-t^2 / (2 (1 - a t / 3)))`, with `exp` abstracted in `ops`. -/
def getBernstein (ops : NumOps) (a t : ℚ) : ℚ :=
  1 - ops.exp ((-(t * t)) / (2 * (1 - a * t / 3)))

/-- Rust `prawitz.rs`: `Bounder::get`: the table lookup, maxed with the Bernstein
bound when `cutoff < -3`. -/
def Bounder.get (b : Bounder) (ops : NumOps) (a cutoff : ℚ) : ℚ :=
  let d := getInternal b.bounds b.coef_gran b.thresh_gran b.max_bound a cutoff
  if cutoff < -3 then max d (getBernstein ops a cutoff) else d

/-- Rust `prawitz.rs`: `Bounder::get_with_var`. -/
def Bounder.get_with_var (b : Bounder) (ops : NumOps)
    (a cutoff min_remaining_var max_remaining_var : ℚ) : ℚ :=
  if 0 < min_remaining_var then
    if 0 ≤ cutoff then
      b.get ops (a / ops.sqrt min_remaining_var) (cutoff / ops.sqrt min_remaining_var)
    else
      b.get ops (a / ops.sqrt min_remaining_var) (cutoff / ops.sqrt max_remaining_var)
  else
    if 0 ≤ cutoff then 0
    else b.get ops 1 (cutoff / ops.sqrt max_remaining_var)

/-- The current value of table cell `(a, y)` (0 out of range, where the Rust
build never reads). -/
def cellValue (bounds : List (List ℚ)) (a y : ℕ) : ℚ :=
  (bounds.getD a []).getD y 0

/-- Write table cell `(a, y)`; a no-op out of range (the build only writes
in-range cells). -/
def setCell : List (List ℚ) → ℕ → ℕ → ℚ → List (List ℚ)
  | [], _, _, _ => []
  | row :: rest, 0, y, v => row.set y v :: rest
  | row :: rest, a + 1, y, v => row :: setCell rest a y v

/-- Rust `prawitz.rs`, `Bounder::new`, refinement inner loop: the "second case"
bound for cell `(a, y)` — the trivial `0.25` floor when `t ≤ min_a_1`,
maxed (when elimination is permitted, `a + 1 < coef_gran`) with the average
of the two rescaled, sign-reflected table lookups.  `powf(0.5)` is
`ops.sqrt`. -/
def eliminationBound (ops : NumOps) (coef_gran thresh_gran max_bound : ℕ)
    (bounds : List (List ℚ)) (y a : ℕ) : ℚ :=
  let t : ℚ := ((y : ℚ) - (max_bound : ℚ) + 1) / (thresh_gran : ℚ)
  let min_a_1 : ℚ := (a : ℚ) / (coef_gran : ℚ)
  let max_a_1 : ℚ := ((a : ℚ) + 1) / (coef_gran : ℚ)
  let min_sigma : ℚ := ops.sqrt (1 - max_a_1 ^ 2)
  let bound0 : ℚ := if t ≤ min_a_1 then 1/4 else 0
  if a + 1 < coef_gran then
    let sta1 := getInternal bounds coef_gran thresh_gran max_bound
      (max_a_1 / min_sigma) ((t - min_a_1) / min_sigma)
    let sta2 := getInternal bounds coef_gran thresh_gran max_bound
      (max_a_1 / min_sigma) ((t + max_a_1) / min_sigma)
    max bound0 ((sta1 + sta2) / 2)
  else bound0

/-- Rust `prawitz.rs`, `Bounder::new`, refinement inner loop: the final value
of the local `bound` variable for cell `(a, y)` — the elimination bound,
`min`-ed (when `a > 0`) with the cell one coefficient bin below. -/
def refineCandidate (ops : NumOps) (coef_gran thresh_gran max_bound : ℕ)
    (bounds : List (List ℚ)) (y a : ℕ) : ℚ :=
  let bound1 := eliminationBound ops coef_gran thresh_gran max_bound bounds y a
  if 0 < a then min bound1 (cellValue bounds (a - 1) y) else bound1

/-- Rust `prawitz.rs`, `Bounder::new`, refinement inner loop body for one cell:
compute the candidate and write it back only if it beats the current value. -/
def updateCell (ops : NumOps) (coef_gran thresh_gran max_bound : ℕ)
    (bounds : List (List ℚ)) (y a : ℕ) : List (List ℚ) :=
  let bound2 := refineCandidate ops coef_gran thresh_gran max_bound bounds y a
  if cellValue bounds a y < bound2 then setCell bounds a y bound2 else bounds

/-- Rust `prawitz.rs`, `Bounder::new`: one full refinement sweep — `y` over
`0..2*max_bound` outside, `a` over `0..coef_gran` inside, updating the table
in place (later cells see earlier updates of the same sweep). -/
def refineSweep (ops : NumOps) (coef_gran thresh_gran max_bound : ℕ)
    (bounds : List (List ℚ)) : List (List ℚ) :=
  (List.range (2 * max_bound)).foldl
    (fun acc y => (List.range coef_gran).foldl
      (fun acc2 a => updateCell ops coef_gran thresh_gran max_bound acc2 y a) acc)
    bounds

/-- Rust `prawitz.rs`, `Bounder::new`, precomputation #1: seed every cell from the
analytic oracle (`prawitz_bound_raw`, numeric integration — abstracted as the
seed function `f`), clamping cells with `y < max_bound` to at least `1/2`. -/
def seedBounds (f : ℕ → ℕ → ℚ) (coef_gran max_bound : ℕ) : List (List ℚ) :=
  (List.range coef_gran).map (fun a =>
    (List.range (2 * max_bound)).map (fun y =>
      if y < max_bound then max (f a y) (1/2) else f a y))

/-- Rust `prawitz.rs`, `Bounder::new`, precomputation #2: `D_ITERATIONS` refinement
sweeps over the seeded table. -/
def buildBounds (ops : NumOps) (f : ℕ → ℕ → ℚ)
    (coef_gran thresh_gran max_bound : ℕ) : List (List ℚ) :=
  (refineSweep ops coef_gran thresh_gran max_bound)^[D_ITERATIONS]
    (seedBounds f coef_gran max_bound)

/-- Rust `prawitz.rs`: `Bounder::new`, with `coef_gran = thresh_gran = N = 2000`,
`max_bound = 3 * thresh_gran`, seeded from the analytic oracle `f`. -/
def Bounder.new (ops : NumOps) (f : ℕ → ℕ → ℚ) : Bounder :=
  ⟨buildBounds ops f 2000 2000 6000, 2000, 2000, 6000⟩

/-- The lookup contract of `Bounder::get` transcribed from the specification:
discretize `a` with ceiling rounding saturated at the table edge and `cutoff`
into a threshold index, return `0` when the threshold index is at or beyond
the row's column count and the stored cell otherwise, and for `cutoff < -3`
take the maximum with the closed-form Bernstein bound
`1 - exp(-t^2 / (2 (1 - a t / 3)))`. -/
def getContract (b : Bounder) (ops : NumOps) (a cutoff : ℚ) : ℚ :=
  let aIdx : ℕ := min (Int.toNat ⌈a * (b.coef_gran : ℚ)⌉) (b.bounds.length - 1)
  let tIdx : ℕ := Int.toNat ⌈cutoff * (b.thresh_gran : ℚ) + (b.max_bound : ℚ)⌉
  let row := b.bounds.getD aIdx []
  let tableValue : ℚ := if tIdx < row.length then row.getD tIdx 0 else 0
  let bernstein : ℚ := 1 - ops.exp ((-(cutoff * cutoff)) / (2 * (1 - a * cutoff / 3)))
  if cutoff < -3 then max tableValue bernstein else tableValue

/-- Rust `prover.rs`: `EPSILON`, the probability-comparison slack. -/
def EPSILON : ℚ := 1 / 10000000000

/-- Rust `prover.rs`: `DELTA_ERROR`, the delta-hypothesis tolerance. -/
def DELTA_ERROR : ℚ := 1 / 1000000

/-- Rust `case.rs` / `prover.rs`: the hypothesis variants the search verifies.
`case.rs` in these sources declares only `DeltaBound`, `Contradiction` and
`None`, while `prover.rs` and `extrema.rs` (same repository) also match a
`SumLowerBound(Vec<i32>, f64)` variant and iterate a `hypotheses` list; the
variant list here follows those uses. -/
inductive Hypothesis where
  | DeltaBound (target delta : ℚ)
  | SumLowerBound (coefs : List ℤ) (bound : ℚ)
  | Contradiction
deriving DecidableEq

/-- Rust `case.rs`: `struct Case` (with the `hypotheses` list that `prover.rs`
and `extrema.rs` iterate). -/
structure Case where
  threshold : ℚ
  prob_cutoff : ℚ
  max_depth : ℕ
  denominator : ℕ
  bounds : List Interval
  restrictions : List Restriction
  subcases : List (List Restriction)
  hypotheses : List Hypothesis

/-- Rust `case.rs`: `Case::get_lower_bound`; `(interval.lb * D) as u128` is a
saturating truncation, i.e. `Int.toNat ∘ Int.floor`. -/
def Case.get_lower_bound (c : Case) (depth : ℕ) : ℕ :=
  match c.bounds.get? depth with
  | some interval => Int.toNat ⌊interval.lb * (c.denominator : ℚ)⌋
  | none => 0

/-- Rust `case.rs`: `Case::get_upper_bound`. -/
def Case.get_upper_bound (c : Case) (depth : ℕ) : ℕ :=
  match c.bounds.get? depth with
  | some interval => Int.toNat ⌊interval.ub * (c.denominator : ℚ)⌋
  | none => c.denominator - 1

/-- Rust `prover.rs`: `Seq::satisfies_restrictions`: the conjunction over all
hints (the Rust breaks out at the first failure; `List.all` is the same
conjunction). -/
def Seq.satisfies_restrictions (s : Seq) (hints : List Restriction) (depth : ℕ) : Bool :=
  hints.all (fun hint =>
    match hint with
    | .InitialSumUpperBound sum_depth bound =>
      ¬ (bound < (((s.numerators.take (min depth sum_depth)).sum : ℕ) : ℚ) /
            (s.denominator : ℚ))
    | .InitialSumLowerBound sum_depth bound =>
      if sum_depth ≤ depth then
        ¬ (((((s.numerators.take sum_depth).sum : ℕ) : ℚ) + (sum_depth : ℚ)) /
              (s.denominator : ℚ) < bound)
      else true
    | .MidSumUpperBound start finish bound =>
      ¬ (bound < ((((s.numerators.take (min depth finish)).drop start).sum : ℕ) : ℚ) /
            (s.denominator : ℚ))
    | .Bounds index interval =>
      if index < depth then
        ¬ (s.get_max index < interval.lb ∨ interval.ub < s.get_min index)
      else true)

/-- Rust `prover.rs`, `Seq::could_be_counterexample`, inner sign loop: the
threshold-adjustment numerator for one `signs_code`, folding over the first
`depth` numerators with `sta % 2` deciding sign (`+ (n+1)` for bit 1,
`- n` for bit 0) and `sta /= 2` advancing. -/
def signAdjustment : ℕ → List ℕ → ℤ
  | _, [] => 0
  | sta, n :: rest =>
    (if sta % 2 = 1 then ((n : ℤ) + 1) else -(n : ℤ)) + signAdjustment (sta / 2) rest

/-- Rust `prover.rs`: `Seq::could_be_counterexample`, total rendering: reject if
`min_variance > 1`; otherwise average the `2^depth` sign-case lookups and
compare against `prob_cutoff + EPSILON`.  The `get_max(depth - 1)` access is
rendered totally here (`ℕ`-subtraction and `getD`); the `Option`-valued
rendering below models its panic. -/
def Seq.could_be_counterexample (s : Seq) (ops : NumOps) (b : Bounder) (c : Case)
    (depth : ℕ) : Bool :=
  let min_remaining_var := 1 - s.max_variance
  let max_remaining_var := 1 - s.min_variance
  if 1 < s.min_variance then false
  else
    let total : ℚ := ((List.range (2 ^ depth)).map (fun signs_code =>
      let adj := signAdjustment signs_code (s.numerators.take depth)
      let new_threshold := c.threshold + (adj : ℚ) / (s.denominator : ℚ)
      b.get_with_var ops (s.get_max (depth - 1)) new_threshold
        min_remaining_var max_remaining_var)).sum
    decide (total / ((2 ^ depth : ℕ) : ℚ) < c.prob_cutoff + EPSILON)

/-- Rust `prover.rs`: `Seq::could_be_counterexample` with its one partial
operation made explicit: the sign loop reads `numerators[depth - 1]`
(through `get_max(depth - 1)`), which panics — `none` here — when
`depth = 0` (usize underflow) or `depth - 1` is out of range.  The
variance rejection happens before that read, exactly as in the Rust. -/
def Seq.could_be_counterexample_checked (s : Seq) (ops : NumOps) (b : Bounder)
    (c : Case) (depth : ℕ) : Option Bool :=
  if 1 < s.min_variance then some false
  else if 1 ≤ depth ∧ depth - 1 < s.numerators.length then
    some (s.could_be_counterexample ops b c depth)
  else none

/-- Rust `extrema.rs`: `struct Extrema`, the per-subcase running envelope. -/
structure Extrema where
  min_as : Seq
  max_as : Seq
  sum_lower_bounds : List (Option ℤ)
  denominator : ℕ
deriving DecidableEq

/-- Rust `extrema.rs`: `Extrema::new` — min envelope seeded at `D`, max at `0`,
one empty running-minimum slot per declared weighted sum. -/
def Extrema.new (denominator max_depth num_sums : ℕ) : Extrema :=
  ⟨Seq.new denominator denominator max_depth, Seq.new 0 denominator max_depth,
    List.replicate num_sums none, denominator⟩

/-- Rust `extrema.rs`, `Extrema::include_seq`, envelope loop, min side:
`min_as[i] = min(min_as[i], numerators[i])` for each index of the included
sequence.  Rendered as parallel recursion; a sequence longer than the
envelope would panic in the Rust, so theorems carry length hypotheses. -/
def updateMin : List ℕ → List ℕ → List ℕ
  | env, [] => env
  | [], _ :: _ => []
  | e :: env, n :: ns => min e n :: updateMin env ns

/-- Rust `extrema.rs`, `Extrema::include_seq`, envelope loop, max side. -/
def updateMax : List ℕ → List ℕ → List ℕ
  | env, [] => env
  | [], _ :: _ => []
  | e :: env, n :: ns => max e n :: updateMax env ns

/-- Rust `extrema.rs`, `Extrema::include_seq`, weighted-sum loop body: the
worst-case (minimum) value of `Σ coef_i · a_i` consistent with the sequence's
intervals — numerator for a non-negative coefficient, numerator + 1 for a
negative one (`zip` truncates at the shorter list, as in the Rust). -/
def slotValue (coefs : List ℤ) (numerators : List ℕ) : ℤ :=
  (((numerators.take coefs.length).zip coefs).map (fun p =>
    if 0 ≤ p.2 then (p.1 : ℤ) * p.2 else ((p.1 : ℤ) + 1) * p.2)).sum

/-- Rust `extrema.rs`, `Extrema::include_seq`, weighted-sum loop: for each
declared coefficient list fully covered by `depth`, fold the new worst-case
sum into the running minimum (first value if the slot was empty).  Parallel
recursion over the coefficient lists and the slots (equal-length by
construction in `Results::new`; a longer coefficient list would panic). -/
def updateSlots (depth : ℕ) (numerators : List ℕ) :
    List (List ℤ) → List (Option ℤ) → List (Option ℤ)
  | [], slots => slots
  | _ :: _, [] => []
  | coefs :: cs, slot :: ss =>
    (if coefs.length ≤ depth then
      let lower_bound := slotValue coefs numerators
      match slot with
      | some old => if lower_bound < old then some lower_bound else some old
      | none => some lower_bound
    else slot) :: updateSlots depth numerators cs ss

/-- Rust `extrema.rs`: `Extrema::include_seq`. -/
def Extrema.include_seq (e : Extrema) (s : Seq)
    (sum_lower_bounds_coefs : List (List ℤ)) (depth : ℕ) : Extrema :=
  ⟨⟨updateMin e.min_as.numerators s.numerators, e.min_as.denominator⟩,
   ⟨updateMax e.max_as.numerators s.numerators, e.max_as.denominator⟩,
   updateSlots depth s.numerators sum_lower_bounds_coefs e.sum_lower_bounds,
   e.denominator⟩

/-- Rust `extrema.rs`: `Extrema::get_sum_lower_bound`, retrieving the precomputed
running minimum (`getD` stands for the in-range indexing the caller
guarantees). -/
def Extrema.get_sum_lower_bound (e : Extrema) (index : ℕ) : Option ℤ :=
  e.sum_lower_bounds.getD index none

/-- Rust `extrema.rs`, `Extrema::get_max_delta`, inner loop: the least distance of
the envelope bracket `[mn, mx]` from one of the targets `{0, t, 2t}`
(starting value `1.0`). -/
def minDelta (mn mx target : ℚ) : ℚ :=
  [0, target, 2 * target].foldl
    (fun acc t => if max |t - mn| |mx - t| < acc then max |t - mn| |mx - t| else acc) 1

/-- Rust `extrema.rs`: `Extrema::get_max_delta`: the per-depth maximum of
`minDelta` over the first `depth` envelope entries. -/
def Extrema.get_max_delta (e : Extrema) (target : ℚ) (depth : ℕ) : ℚ :=
  (List.range depth).foldl
    (fun acc i =>
      let d := minDelta (e.min_as.get_min i) (e.max_as.get_max i) target
      if acc < d then d else acc) 0

/-- Rust `extrema.rs`: `Extrema::is_contradiction` — the depth-0 envelope is
empty. -/
def Extrema.is_contradiction (e : Extrema) : Bool :=
  decide (e.max_as.get_max 0 < e.min_as.get_min 0)

/-- Rust `extrema.rs`: `struct Results`. -/
structure Results where
  subcases : List (List Restriction × Extrema)
  sum_lower_bound_coefs : List (List ℤ)
  default_subcase : Extrema

/-- Rust `extrema.rs`, `Results::new`, first loop: the coefficient lists of
all `SumLowerBound` hypotheses, in declaration order. -/
def sumCoefs (c : Case) : List (List ℤ) :=
  c.hypotheses.filterMap (fun h =>
    match h with
    | .SumLowerBound coefs _ => some coefs
    | _ => none)

/-- Rust `extrema.rs`: `Results::new` — one `Extrema` per declared subcase plus
the default one. -/
def Results.new (c : Case) : Results :=
  ⟨c.subcases.map (fun sc =>
      (sc, Extrema.new c.denominator c.max_depth (sumCoefs c).length)),
   sumCoefs c,
   Extrema.new c.denominator c.max_depth (sumCoefs c).length⟩

/-- Rust `extrema.rs`: `Results::include_seq` — fold the sequence into every
subcase it matches, and into the default subcase if it matches none.  The
matching test `Seq::could_satisfy_restrictions` is not defined in these
sources (only called), so it is an abstract parameter `csat` here. -/
def Results.include_seq (csat : Seq → List Restriction → ℕ → Bool)
    (r : Results) (s : Seq) (depth : ℕ) : Results :=
  let is_in_any_subcase := r.subcases.any (fun p => csat s p.1 depth)
  ⟨r.subcases.map (fun p =>
      if csat s p.1 depth then (p.1, p.2.include_seq s r.sum_lower_bound_coefs depth)
      else p),
   r.sum_lower_bound_coefs,
   if is_in_any_subcase then r.default_subcase
   else r.default_subcase.include_seq s r.sum_lower_bound_coefs depth⟩

/-- Rust `extrema.rs`, `Results::get_sum_lower_bound`, `'find_coefs` loop: the
index of the first stored coefficient list equal to `coefs` (the Rust
compares lengths and then elementwise, i.e. list equality). -/
def findCoefsIndex (coefs : List ℤ) : List (List ℤ) → Option ℕ
  | [] => none
  | cs :: rest =>
    if cs = coefs then some 0 else (findCoefsIndex coefs rest).map (· + 1)

/-- Rust `extrema.rs`: `Results::get_sum_lower_bound`.  The outer `Option` models
the `index.unwrap()` panic when `coefs` matches no stored list; the inner
`Option` is the code's own "absent" result: the minimum of the per-subcase
running minima (including the default subcase), `none` when every slot is
empty, divided by the shared denominator otherwise. -/
def Results.get_sum_lower_bound (r : Results) (coefs : List ℤ) : Option (Option ℚ) :=
  match findCoefsIndex coefs r.sum_lower_bound_coefs with
  | none => none
  | some index =>
    let min_sum := r.subcases.foldl
      (fun acc p =>
        match acc, p.2.get_sum_lower_bound index with
        | some x, some y => some (min x y)
        | some x, none => some x
        | none, some x => some x
        | none, none => none)
      (r.default_subcase.get_sum_lower_bound index)
    some (min_sum.map (fun numerator =>
      (numerator : ℚ) / (r.default_subcase.denominator : ℚ)))

/-- Rust `extrema.rs`: `Results::get_max_delta` — cross-subcase maximum, default
subcase included. -/
def Results.get_max_delta (r : Results) (target : ℚ) (depth : ℕ) : ℚ :=
  r.subcases.foldl (fun acc p => max acc (p.2.get_max_delta target depth))
    (r.default_subcase.get_max_delta target depth)

/-- Rust `extrema.rs`: `Results::is_contradiction` — true only if the default
subcase and every declared subcase all have empty envelopes. -/
def Results.is_contradiction (r : Results) : Bool :=
  r.subcases.foldl (fun acc p => if ¬ p.2.is_contradiction then false else acc)
    r.default_subcase.is_contradiction

/-- Rust `prover.rs`, `simulate`, hypothesis loop: whether one hypothesis is
reported proved from the accumulated results (`none` models the
`index.unwrap()` panic inside `Results::get_sum_lower_bound` for an
undeclared coefficient list). -/
def hypothesisProved (r : Results) (max_depth : ℕ) : Hypothesis → Option Bool
  | .DeltaBound target delta_bound =>
    some (decide (r.get_max_delta target max_depth + DELTA_ERROR ≤ delta_bound))
  | .SumLowerBound coefs bound =>
    match r.get_sum_lower_bound coefs with
    | none => none
    | some none => some false
    | some (some sum_bound) => some (decide (bound ≤ sum_bound))
  | .Contradiction => some r.is_contradiction

/-- The mutable state threaded through `simulate` / `simulate_rec`, with two
instrumentation streams proofs refer to: `sets` records every
`Seq::set(index, numerator)` performed, and `calls` records, for every
invocation of `could_be_counterexample`, the depth and the numerators at that
moment.  (The Rust mutates `seq` and `results` in place; the recording is
the only addition.) -/
structure SearchState where
  seq : Seq
  results : Results
  sets : List (ℕ × ℕ)
  calls : List (ℕ × List ℕ)

/-- A `seq.set(index, numerator)` step, recorded. -/
def recordSet (st : SearchState) (index numerator : ℕ) : SearchState :=
  ⟨st.seq.set index numerator, st.results, st.sets ++ [(index, numerator)], st.calls⟩

/-- Rust `prover.rs`: `simulate_rec`.  The recursion consumes explicit `fuel`
(the callers pass at least `max_depth - depth`, so the `fuel = 0` fallback
is never taken on the guarded branch); `&&` is short-circuiting, so the
`could_be_counterexample` call is recorded only once the restrictions hold,
as in the Rust.  The descent range is
`case.get_lower_bound(depth) ..= min(previous numerator, case.get_upper_bound(depth))`,
with the slot reset to `0` on backtrack. -/
def simulate_rec (ops : NumOps) (csat : Seq → List Restriction → ℕ → Bool)
    (b : Bounder) (c : Case) : ℕ → ℕ → SearchState → SearchState
  | depth, fuel, st =>
    if st.seq.satisfies_restrictions c.restrictions depth then
      let st1 : SearchState :=
        ⟨st.seq, st.results, st.sets, st.calls ++ [(depth, st.seq.numerators)]⟩
      if st1.seq.could_be_counterexample ops b c depth then
        if depth < c.max_depth then
          match fuel with
          | 0 => st1
          | fuel' + 1 =>
            let lo := c.get_lower_bound depth
            let hi := min (st1.seq.get_min_numerator (depth - 1)) (c.get_upper_bound depth)
            let st2 := (List.range' lo (hi + 1 - lo)).foldl
              (fun acc numerator =>
                simulate_rec ops csat b c (depth + 1) fuel' (recordSet acc depth numerator))
              st1
            recordSet st2 depth 0
        else
          ⟨st1.seq, st1.results.include_seq csat st1.seq depth, st1.sets, st1.calls⟩
      else st1
    else st

/-- Rust `prover.rs`: `simulate` (printing stripped): a fresh all-zero sequence
and fresh `Results`, then the root coefficient loop over
`get_lower_bound(0) ..= get_upper_bound(0)`, recursing from depth 1. -/
def simulate (ops : NumOps) (csat : Seq → List Restriction → ℕ → Bool)
    (b : Bounder) (c : Case) : SearchState :=
  let st0 : SearchState := ⟨Seq.new 0 c.denominator c.max_depth, Results.new c, [], []⟩
  let lo := c.get_lower_bound 0
  let hi := c.get_upper_bound 0
  (List.range' lo (hi + 1 - lo)).foldl
    (fun acc numerator =>
      simulate_rec ops csat b c 1 c.max_depth (recordSet acc 0 numerator))
    st0

/-- Split a character list at every occurrence of `c` (the semantics of
Rust's `str::split(',')` / the `lines()` splitting used in `file_io.rs`):
`n` separators always yield `n + 1` (possibly empty) pieces. -/
def splitOnChar (c : Char) : List Char → List (List Char)
  | [] => [[]]
  | ch :: rest =>
    if ch = c then [] :: splitOnChar c rest
    else
      match splitOnChar c rest with
      | [] => [[ch]]
      | w :: ws => (ch :: w) :: ws

/-- Interleave the separator `c` between the pieces (the semantics of Rust's
`Vec::join(",")`). -/
def joinChar (c : Char) : List (List Char) → List Char
  | [] => []
  | [w] => w
  | w :: ws => w ++ c :: joinChar c ws

/-- Rust's `str::trim`: drop leading and trailing whitespace. -/
def trimChars (s : List Char) : List Char :=
  ((s.dropWhile Char.isWhitespace).reverse.dropWhile Char.isWhitespace).reverse

/-- A well-behaved serialized number token: non-empty, and free of
whitespace (hence of `'\n'`) and of the `','` separator.  Rust's
`f64`/`usize` `to_string` output always has this shape. -/
def goodTok (w : List Char) : Prop :=
  w ≠ [] ∧ ∀ ch ∈ w, ¬ ch.isWhitespace ∧ ch ≠ ','

instance (w : List Char) : Decidable (goodTok w) := by
  unfold goodTok; infer_instance

/-- Rust `file_io.rs`: `bounder_to_file`, as the character stream written to
`bounder.csv`: the header line `coef_gran,thresh_gran,max_bound`, then one
comma-joined row per coefficient bin, each line terminated by `'\n'`.  The
number formatting (`f64::to_string` / `usize` display) is abstracted as the
encoders `encQ` / `encN`. -/
def bounder_to_file (encQ : ℚ → List Char) (encN : ℕ → List Char) (b : Bounder) :
    List Char :=
  let header := joinChar ','
    [encN b.coef_gran, encN b.thresh_gran, encN b.max_bound]
  let lines := header :: b.bounds.map (fun row => joinChar ',' (row.map encQ))
  joinChar '\n' lines ++ ['\n']

/-- Rust `file_io.rs`: `bounder_from_file` on a character stream: trim, split
into lines, parse the first line's three comma-separated shape parameters
(`none` models the `unwrap` panic when it has fewer than three), and parse
every remaining line as a comma-separated row.  Number parsing is abstracted
as the decoders `decQ` / `decN`, matching the abstracted encoders. -/
def bounder_from_file (decQ : List Char → ℚ) (decN : List Char → ℕ)
    (contents : List Char) : Option Bounder :=
  match splitOnChar '\n' (trimChars contents) with
  | [] => none
  | header :: rest =>
    let pars := splitOnChar ',' header
    match pars.get? 0, pars.get? 1, pars.get? 2 with
    | some p0, some p1, some p2 =>
      some (Bounder.new_manual
        (rest.map (fun line => (splitOnChar ',' line).map decQ))
        (decN p0) (decN p1) (decN p2))
    | _, _, _ => none

/-- A 6-step Newton iteration for square roots on `ℚ`, one concrete stand-in
for `f64::sqrt` where a closed instance of `NumOps` is needed. -/
def sqrtIter : ℕ → ℚ → ℚ → ℚ
  | 0, _, g => g
  | n + 1, q, g => if g ≤ 0 then 0 else sqrtIter n q ((g + q / g) / 2)

/-- Concrete rational square-root approximation (exact enough for every
table lookup these developments evaluate). -/
def sqrtQ (q : ℚ) : ℚ :=
  if q ≤ 0 then 0 else sqrtIter 6 q q

/-- Concrete rational stand-in for `f64::exp` (only its totality matters in
the evaluations below: no evaluated path reaches the Bernstein regime). -/
def expQ (q : ℚ) : ℚ :=
  1 + q + q * q / 2

/-- A closed instance of the abstracted numeric library operations. -/
def ops0 : NumOps := ⟨sqrtQ, expQ⟩

/-- A closed instance of the abstracted `Seq::could_satisfy_restrictions`
(the strict test is one admissible matching semantics). -/
def csat0 : Seq → List Restriction → ℕ → Bool :=
  fun s hints depth => s.satisfies_restrictions hints depth

/-- A tiny all-zero lookup table for concrete search runs. -/
def b0 : Bounder := ⟨[[0, 0]], 1, 1, 1⟩

/-- A case whose only declared bound interval is `[0, 1]`: its upper
numerator bound is `ub * D = D` itself. -/
def case0 : Case :=
  ⟨10, 1/2, 1, 2, [Interval.UNIT], [], [], []⟩

/-- A sequence with `max_variance > 1` but `min_variance ≤ 1`. -/
def seqHighVar : Seq := ⟨[1, 1], 2⟩

/-- A sequence with `min_variance > 1` (numerator above the denominator). -/
def seqOverVar : Seq := ⟨[3], 2⟩

/-- A case used for the variance-pruning evaluations (threshold far right of
the table, so every lookup is a clean `0`). -/
def caseVar : Case :=
  ⟨10, 1/2, 2, 2, [], [], [], []⟩

/-- A case declaring a `SumLowerBound` hypothesis whose coefficient list
(length 2) is strictly longer than `max_depth = 1`. -/
def caseSum : Case :=
  ⟨10, 1/2, 1, 2, [], [], [[Restriction.Bounds 0 Interval.UNIT]],
    [Hypothesis.SumLowerBound [1, 1] 5]⟩

/-- A 2-coefficient-bin, 2-threshold-bin table (shape parameters
`coef_gran = 2`, `thresh_gran = 1`, `max_bound = 1`) on which one refinement
cell update is evaluated: the elimination bound and the cell one bin below
visibly disagree at `(a, y) = (1, 0)`. -/
def tableC1 : List (List ℚ) := [[9/10, 0], [3/10, 0]]

/-- A seed function whose clamped seed table is
`[[9/10, 0], [1/2, 0]]` for shape `coef_gran = 2`, `thresh_gran = 1`,
`max_bound = 1`: column 0 starts (and stays) strictly decreasing in the
coefficient bin. -/
def seedC8 : ℕ → ℕ → ℚ :=
  fun a y => if a = 0 ∧ y = 0 then 9/10 else if a = 1 ∧ y = 0 then 1/2 else 0

/-- A fresh concrete envelope (denominator 2, depth 2, one sum slot). -/
def exW : Extrema := Extrema.new 2 2 1

/-- A concrete sequence folded into `exW`. -/
def seqW : Seq := ⟨[1, 0], 2⟩

/-- A concrete declared-coefficient-list collection with one entry. -/
def clW : List (List ℤ) := [[1, 1]]

/-- A concrete one-row bounder for the persistence round trip. -/
def bW : Bounder := ⟨[[0, 1/2]], 2, 1, 1⟩

/-- A concrete stand-in for `f64::to_string` on the two values stored in
`bW` (any injective, separator-free rendering works). -/
def encQw : ℚ → List Char := fun q => if q = 0 then ['0'] else ['h']

/-- The matching concrete stand-in for `str::parse::<f64>`. -/
def decQw : List Char → ℚ := fun w => if w = ['0'] then 0 else 1/2

/-- A concrete stand-in for `usize` display on `bW`'s shape parameters. -/
def encNw : ℕ → List Char := fun n => if n = 2 then ['2'] else ['1']

/-- The matching concrete stand-in for `str::parse::<usize>`. -/
def decNw : List Char → ℕ := fun w => if w = ['2'] then 2 else 1

/-- Verification predicate: every running-minimum slot whose declared
coefficient list is strictly longer than `max_depth` is still unfilled
(`none`), in the default subcase and in every declared subcase, and the
stored coefficient lists are the declared ones. -/
def slotsNoneForLong (c : Case) (r : Results) : Prop :=
  r.sum_lower_bound_coefs = sumCoefs c ∧
    (∀ i coefs, (sumCoefs c).get? i = some coefs → c.max_depth < coefs.length →
      r.default_subcase.sum_lower_bounds.get? i = some none) ∧
    (∀ p ∈ r.subcases, ∀ i coefs, (sumCoefs c).get? i = some coefs →
      c.max_depth < coefs.length → p.2.sum_lower_bounds.get? i = some none)

/-! Theorems.  Each claim `Cn` of the specification has one main theorem,
with a closed counterexample where the claim fails on the code as stated,
and a closed witness instantiating every hypothesis-bearing theorem. -/

/-- Helper: `List.getD` after `List.set` at the same in-range index. -/
theorem getD_set_self {α : Type} (l : List α) (i : ℕ) (v d : α) (h : i < l.length) :
    (l.set i v).getD i d = v := by
  induction l generalizing i with
  | nil => simp at h
  | cons x xs ih =>
    cases i with
    | zero => rfl
    | succ n => simpa using ih n (by simpa using h)

/-- Helper: reading back an in-range cell just written by `setCell`. -/
theorem cellValue_setCell (bounds : List (List ℚ)) (a y : ℕ) (v : ℚ)
    (ha : a < bounds.length) (hy : y < (bounds.getD a []).length) :
    cellValue (setCell bounds a y v) a y = v := by
  induction bounds generalizing a with
  | nil => simp at ha
  | cons row rest ih =>
    cases a with
    | zero =>
      simp only [List.getD_cons_zero] at hy
      simp only [setCell, cellValue, List.getD_cons_zero]
      exact getD_set_self row y v 0 hy
    | succ n =>
      simp only [List.getD_cons_succ] at hy
      simp only [setCell, cellValue, List.getD_cons_succ]
      exact ih n (by simpa using ha) hy

/-- C9, counterexample: `UNIT = [0,1]` is not an intersection identity for
every interval — intersecting `[-1, 2]` with `UNIT` clips it to `[0, 1]`. -/
theorem c9_counterexample :
    Interval.intersect ⟨-1, 2⟩ Interval.UNIT ≠ ⟨-1, 2⟩ := by
  with_unfolding_all decide

/-- C9 (amended): interval intersection via `intersect_inplace` is
commutative and idempotent for all intervals, and `UNIT = [0,1]` is an
identity for every interval already contained in `[0,1]`
(`0 ≤ lb` and `ub ≤ 1`). -/
theorem c9_intersect_comm_idem_unit (A B : Interval) :
    A.intersect B = B.intersect A ∧ A.intersect A = A ∧
      (0 ≤ A.lb → A.ub ≤ 1 → A.intersect Interval.UNIT = A) := by
  refine ⟨?_, ?_, fun h0 h1 => ?_⟩
  · simp [Interval.intersect, max_comm, min_comm]
  · simp [Interval.intersect]
  · simp [Interval.intersect, Interval.UNIT, max_eq_left h0, min_eq_left h1]

/-- C9, witness: the identity law applied to the concrete interval `[0, 1/2]`. -/
theorem c9_witness : Interval.intersect ⟨0, 1/2⟩ Interval.UNIT = ⟨0, 1/2⟩ :=
  (c9_intersect_comm_idem_unit ⟨0, 1/2⟩ ⟨0, 1/2⟩).2.2 (by norm_num) (by norm_num)

/-- Helper: the variance rejection of `could_be_counterexample` fires exactly
on `min_variance > 1`, for any bounder, case and depth. -/
theorem prune_of_min_variance (s : Seq) (ops : NumOps) (b : Bounder) (c : Case)
    (depth : ℕ) (h : 1 < s.min_variance) :
    s.could_be_counterexample ops b c depth = false := by
  simp only [Seq.could_be_counterexample, if_pos h]

/-- C2, counterexample: a sequence whose maximum-possible total variance
exceeds 1 (but whose minimum-possible variance does not) is **not** rejected:
`could_be_counterexample` runs the sign loop and here returns `true`. -/
theorem c2_counterexample :
    1 < seqHighVar.max_variance ∧
      seqHighVar.could_be_counterexample ops0 b0 caseVar 1 = true := by
  with_unfolding_all decide

/-- C2 (amended): the immediate rejection tests the **minimum**-possible
total variance (each coefficient at the bottom of its sub-interval): whenever
`min_variance > 1`, `could_be_counterexample` returns `false` immediately,
for any bounder, any case and any depth. -/
theorem c2_variance_prune (s : Seq) (ops : NumOps) (b : Bounder) (c : Case)
    (depth : ℕ) (h : 1 < s.min_variance) :
    s.could_be_counterexample ops b c depth = false :=
  prune_of_min_variance s ops b c depth h

/-- C2, witness: the numerator-3-over-denominator-2 sequence has
`min_variance = 9/4 > 1` and is rejected. -/
theorem c2_witness : seqOverVar.could_be_counterexample ops0 b0 caseVar 1 = false :=
  c2_variance_prune seqOverVar ops0 b0 caseVar 1 (by with_unfolding_all decide)

/-- C3: for every bounder with a non-empty table, `Bounder::get` realizes
the specified lookup contract: ceiling discretization saturated at the table
edge for the coefficient, ceiling discretization of the threshold, `0` when
the threshold index is at or beyond the row's column count, the stored cell
otherwise, and for `cutoff < -3` the maximum with the Bernstein bound
`1 - exp(-t^2 / (2 (1 - a t / 3)))`. -/
theorem c3_get_matches_contract (b : Bounder) (ops : NumOps) (a cutoff : ℚ)
    (hb : b.bounds ≠ []) :
    b.get ops a cutoff = getContract b ops a cutoff := by
  have hswap : ∀ (L : List ℚ) (i : ℕ),
      (if L.length ≤ i then (0 : ℚ) else L.getD i 0) =
        (if i < L.length then L.getD i 0 else 0) := by
    intro L i
    rcases lt_or_le i L.length with h | h
    · rw [if_neg (by omega), if_pos h]
    · rw [if_pos h, if_neg (by omega)]
  simp only [Bounder.get, getContract, getInternal, getBernstein, hswap]

/-- C3, witness: the contract equation evaluated on the concrete table `b0`. -/
theorem c3_witness : b0.get ops0 (1/2) 0 = getContract b0 ops0 (1/2) 0 :=
  c3_get_matches_contract b0 ops0 (1/2) 0 (by with_unfolding_all decide)

/-- C1, counterexample: one refinement cell update on the concrete table
`[[9/10, 0], [3/10, 0]]` at cell `(a, y) = (1, 0)`: the code keeps `3/10`
(candidate `min(1/4, 9/10) = 1/4` does not beat the cell), while the claimed
`max`-combination would give `9/10`. -/
theorem c1_counterexample :
    ¬ (cellValue (updateCell ops0 2 1 1 tableC1 0 1) 1 0 =
        max (cellValue tableC1 1 0)
          (max (eliminationBound ops0 2 1 1 tableC1 0 1) (cellValue tableC1 0 0))) := by
  with_unfolding_all decide

/-- C1 (amended): in every refinement sweep, for every in-range cell
`(a, y)` with `a ≥ 1`, the candidate is the **minimum** of the elimination
bound and the table's value one coefficient-bin below (`bounds[a-1][y]`),
and the new cell value is the maximum of that candidate and the cell's
current value. -/
theorem c1_refinement_candidate (ops : NumOps) (coef_gran thresh_gran max_bound : ℕ)
    (bounds : List (List ℚ)) (y a : ℕ) (ha : 1 ≤ a) (ha2 : a < bounds.length)
    (hy : y < (bounds.getD a []).length) :
    cellValue (updateCell ops coef_gran thresh_gran max_bound bounds y a) a y =
      max (cellValue bounds a y)
        (min (eliminationBound ops coef_gran thresh_gran max_bound bounds y a)
          (cellValue bounds (a - 1) y)) := by
  have hcand : refineCandidate ops coef_gran thresh_gran max_bound bounds y a =
      min (eliminationBound ops coef_gran thresh_gran max_bound bounds y a)
        (cellValue bounds (a - 1) y) := by
    simp only [refineCandidate]
    rw [if_pos (show 0 < a from ha)]
  simp only [updateCell, hcand]
  by_cases hlt : cellValue bounds a y <
      min (eliminationBound ops coef_gran thresh_gran max_bound bounds y a)
        (cellValue bounds (a - 1) y)
  · rw [if_pos hlt, cellValue_setCell _ _ _ _ ha2 hy, max_eq_right hlt.le]
  · rw [if_neg hlt, max_eq_left (not_lt.1 hlt)]

/-- C1, witness: the amended per-cell update equation on the concrete table
`[[9/10, 0], [3/10, 0]]` at cell `(1, 0)`. -/
theorem c1_witness :
    cellValue (updateCell ops0 2 1 1 tableC1 0 1) 1 0 =
      max (cellValue tableC1 1 0)
        (min (eliminationBound ops0 2 1 1 tableC1 0 1) (cellValue tableC1 0 0)) :=
  c1_refinement_candidate ops0 2 1 1 tableC1 0 1 (by decide)
    (by with_unfolding_all decide) (by with_unfolding_all decide)

/-- Helper: `List.getD` after `List.set`, all cases. -/
theorem getD_set {α : Type} (l : List α) (i j : ℕ) (v d : α) :
    (l.set i v).getD j d = if i = j ∧ j < l.length then v else l.getD j d := by
  induction l generalizing i j with
  | nil => simp
  | cons x xs ih =>
    cases i with
    | zero =>
      cases j with
      | zero => simp
      | succ n => simp
    | succ m =>
      cases j with
      | zero => simp
      | succ n =>
        simp only [List.set_cons_succ, List.getD_cons_succ, ih m n, List.length_cons]
        have : (m = n ∧ n < xs.length) ↔ (m + 1 = n + 1 ∧ n + 1 < xs.length + 1) := by
          omega
        by_cases h : m = n ∧ n < xs.length
        · rw [if_pos h, if_pos (this.1 h)]
        · rw [if_neg h, if_neg (fun hc => h (this.2 hc))]

/-- Helper: writing a value at least as large as the old cell never
decreases any cell. -/
theorem cellValue_setCell_le (bounds : List (List ℚ)) (a y : ℕ) (v : ℚ)
    (h : cellValue bounds a y ≤ v) (a' y' : ℕ) :
    cellValue bounds a' y' ≤ cellValue (setCell bounds a y v) a' y' := by
  induction bounds generalizing a a' with
  | nil => simp [setCell]
  | cons row rest ih =>
    cases a with
    | zero =>
      cases a' with
      | zero =>
        simp only [cellValue, List.getD_cons_zero] at h ⊢
        simp only [setCell, List.getD_cons_zero, getD_set]
        by_cases hc : y = y' ∧ y' < row.length
        · rw [if_pos hc, ← hc.1]; exact h
        · rw [if_neg hc]
      | succ n => simp [setCell, cellValue]
    | succ m =>
      cases a' with
      | zero => simp [setCell, cellValue]
      | succ n =>
        simp only [cellValue, List.getD_cons_succ] at h ⊢
        simp only [setCell, List.getD_cons_succ]
        exact ih m h n

/-- Helper: one cell update of the refinement never decreases any cell. -/
theorem updateCell_inflationary (ops : NumOps) (coef_gran thresh_gran max_bound : ℕ)
    (bounds : List (List ℚ)) (y a a' y' : ℕ) :
    cellValue bounds a' y' ≤
      cellValue (updateCell ops coef_gran thresh_gran max_bound bounds y a) a' y' := by
  simp only [updateCell]
  by_cases h : cellValue bounds a y <
      refineCandidate ops coef_gran thresh_gran max_bound bounds y a
  · rw [if_pos h]
    exact cellValue_setCell_le _ _ _ _ h.le a' y'
  · rw [if_neg h]

/-- Helper: folding cell-monotone steps is cell-monotone. -/
theorem foldl_inflationary {β : Type} (f : List (List ℚ) → β → List (List ℚ))
    (hf : ∀ B x a y, cellValue B a y ≤ cellValue (f B x) a y) :
    ∀ (l : List β) (B : List (List ℚ)) (a y : ℕ),
      cellValue B a y ≤ cellValue (l.foldl f B) a y := by
  intro l
  induction l with
  | nil => intro B a y; exact le_refl _
  | cons x xs ih =>
    intro B a y
    exact le_trans (hf B x a y) (ih (f B x) a y)

/-- Helper: one full refinement sweep never decreases any cell. -/
theorem refineSweep_inflationary (ops : NumOps) (coef_gran thresh_gran max_bound : ℕ)
    (B : List (List ℚ)) (a y : ℕ) :
    cellValue B a y ≤ cellValue (refineSweep ops coef_gran thresh_gran max_bound B) a y := by
  unfold refineSweep
  exact foldl_inflationary
    (fun acc yy => (List.range coef_gran).foldl
      (fun acc2 aa => updateCell ops coef_gran thresh_gran max_bound acc2 yy aa) acc)
    (fun B' yy a' y' =>
      foldl_inflationary
        (fun acc2 aa => updateCell ops coef_gran thresh_gran max_bound acc2 yy aa)
        (fun B'' aa a'' y'' =>
          updateCell_inflationary ops coef_gran thresh_gran max_bound B'' yy aa a'' y'')
        (List.range coef_gran) B' a' y')
    (List.range (2 * max_bound)) B a y

set_option maxRecDepth 20000 in
/-- C8, counterexample: for the seed whose clamped table is
`[[9/10, 0], [1/2, 0]]` (shape `coef_gran = 2`, `thresh_gran = 1`,
`max_bound = 1`), that table is a fixed point of the refinement sweep, so
after all `D_ITERATIONS` passes the table still violates coefficient-axis
monotonicity at `(a, y) = (1, 0)`: `bounds[1][0] = 1/2 < 9/10 = bounds[0][0]`. -/
theorem c8_counterexample :
    ¬ (cellValue (buildBounds ops0 seedC8 2 1 1) 0 0 ≤
        cellValue (buildBounds ops0 seedC8 2 1 1) 1 0) := by
  have hfix : refineSweep ops0 2 1 1 (seedBounds seedC8 2 1) = seedBounds seedC8 2 1 := by
    with_unfolding_all decide
  have hbuild : buildBounds ops0 seedC8 2 1 1 = seedBounds seedC8 2 1 := by
    unfold buildBounds
    exact Function.iterate_fixed hfix D_ITERATIONS
  rw [hbuild]
  with_unfolding_all decide

/-- C8 (amended): the refinement passes never regress — after the full
`D_ITERATIONS` sweeps every cell of the built table is at least its seeded
value (and, per sweep, at least its previous value) — but coefficient-axis
monotonicity `bounds[a][y] ≥ bounds[a-1][y]` is not guaranteed by the
refinement recurrence. -/
theorem c8_refinement_never_regresses (ops : NumOps) (f : ℕ → ℕ → ℚ)
    (coef_gran thresh_gran max_bound a y : ℕ) :
    cellValue (seedBounds f coef_gran max_bound) a y ≤
      cellValue (buildBounds ops f coef_gran thresh_gran max_bound) a y := by
  unfold buildBounds
  generalize seedBounds f coef_gran max_bound = B
  have h : ∀ (n : ℕ) (B : List (List ℚ)),
      cellValue B a y ≤
        cellValue ((refineSweep ops coef_gran thresh_gran max_bound)^[n] B) a y := by
    intro n
    induction n with
    | zero => intro B; exact le_refl _
    | succ m ih =>
      intro B
      rw [Function.iterate_succ_apply]
      exact le_trans (refineSweep_inflationary ops _ _ _ B a y) (ih _)
  exact h D_ITERATIONS B

/-- Helper: the min-envelope update only ever decreases entries. -/
theorem updateMin_getD_le (env ns : List ℕ) (i : ℕ) :
    (updateMin env ns).getD i 0 ≤ env.getD i 0 := by
  induction env generalizing ns i with
  | nil =>
    cases ns with
    | nil => exact le_refl _
    | cons n ns' => simp [updateMin]
  | cons e env' ih =>
    cases ns with
    | nil => exact le_refl _
    | cons n ns' =>
      cases i with
      | zero => simpa [updateMin] using min_le_left e n
      | succ j => simpa [updateMin] using ih ns' j

/-- Helper: the max-envelope update only ever increases entries. -/
theorem le_updateMax_getD (env ns : List ℕ) (i : ℕ) :
    env.getD i 0 ≤ (updateMax env ns).getD i 0 := by
  induction env generalizing ns i with
  | nil =>
    cases ns with
    | nil => exact le_refl _
    | cons n ns' => simp [updateMax]
  | cons e env' ih =>
    cases ns with
    | nil => exact le_refl _
    | cons n ns' =>
      cases i with
      | zero => simpa [updateMax] using le_max_left e n
      | succ j => simpa [updateMax] using ih ns' j

/-- Helper: folding the same sequence into the min envelope twice equals
folding it once. -/
theorem updateMin_idem (env ns : List ℕ) :
    updateMin (updateMin env ns) ns = updateMin env ns := by
  induction env generalizing ns with
  | nil => cases ns <;> simp [updateMin]
  | cons e env' ih =>
    cases ns with
    | nil => simp [updateMin]
    | cons n ns' => simp [updateMin, ih, min_assoc]

/-- Helper: folding the same sequence into the max envelope twice equals
folding it once. -/
theorem updateMax_idem (env ns : List ℕ) :
    updateMax (updateMax env ns) ns = updateMax env ns := by
  induction env generalizing ns with
  | nil => cases ns <;> simp [updateMax]
  | cons e env' ih =>
    cases ns with
    | nil => simp [updateMax]
    | cons n ns' => simp [updateMax, ih, max_assoc]

/-- Helper: re-folding the same sequence at the same depth leaves every
running-minimum slot unchanged. -/
theorem updateSlots_idem (d : ℕ) (ns : List ℕ) (cl : List (List ℤ))
    (slots : List (Option ℤ)) :
    updateSlots d ns cl (updateSlots d ns cl slots) = updateSlots d ns cl slots := by
  induction cl generalizing slots with
  | nil => rfl
  | cons coefs cs ih =>
    cases slots with
    | nil => rfl
    | cons slot ss =>
      simp only [updateSlots]
      by_cases hd : coefs.length ≤ d
      · rw [if_pos hd, if_pos hd]
        refine congrArg₂ _ ?_ (ih ss)
        cases slot with
        | none => simp [lt_irrefl]
        | some old =>
          by_cases hlb : slotValue coefs ns < old
          · simp [hlb, lt_irrefl]
          · simp [hlb]
      · rw [if_neg hd, if_neg hd]
        exact congrArg _ (ih ss)

/-- C5: `Extrema::include_seq` is monotone — after inclusion the min
envelope at every index is `≤` its previous value and the max envelope at
every index is `≥` its previous value — and idempotent: folding the same
sequence in a second time at the same depth leaves the entire `Extrema`
state (both envelopes and all running-minimum sums) unchanged.  The length
hypotheses record that the sequence matches the envelope size and the
coefficient lists match the slot count, as `Results` guarantees (longer
inputs would panic in the Rust). -/
theorem c5_include_seq_monotone_idem (e : Extrema) (s : Seq) (cl : List (List ℤ))
    (depth : ℕ)
    (h1 : s.numerators.length = e.min_as.numerators.length)
    (h2 : s.numerators.length = e.max_as.numerators.length)
    (h3 : cl.length = e.sum_lower_bounds.length) :
    (∀ i, (e.include_seq s cl depth).min_as.numerators.getD i 0 ≤
        e.min_as.numerators.getD i 0) ∧
      (∀ i, e.max_as.numerators.getD i 0 ≤
        (e.include_seq s cl depth).max_as.numerators.getD i 0) ∧
      (e.include_seq s cl depth).include_seq s cl depth = e.include_seq s cl depth := by
  refine ⟨fun i => ?_, fun i => ?_, ?_⟩
  · simpa [Extrema.include_seq] using updateMin_getD_le e.min_as.numerators s.numerators i
  · simpa [Extrema.include_seq] using le_updateMax_getD e.max_as.numerators s.numerators i
  · simp [Extrema.include_seq, updateMin_idem, updateMax_idem, updateSlots_idem]

/-- C5, witness: monotonicity at index 0 and idempotence for the concrete
envelope `exW`, sequence `seqW` and coefficient lists `clW` at depth 2. -/
theorem c5_witness :
    ((exW.include_seq seqW clW 2).min_as.numerators.getD 0 0 ≤
        exW.min_as.numerators.getD 0 0) ∧
      (exW.include_seq seqW clW 2).include_seq seqW clW 2 =
        exW.include_seq seqW clW 2 :=
  ⟨(c5_include_seq_monotone_idem exW seqW clW 2 (by with_unfolding_all decide)
      (by with_unfolding_all decide) (by with_unfolding_all decide)).1 0,
   (c5_include_seq_monotone_idem exW seqW clW 2 (by with_unfolding_all decide)
      (by with_unfolding_all decide) (by with_unfolding_all decide)).2.2⟩

/-- Helper: a fold preserves an invariant preserved by every step on a
member of the list. -/
theorem foldl_preserve_mem {α β : Type} (P : α → Prop) (f : α → β → α) :
    ∀ (l : List β), (∀ st x, x ∈ l → P st → P (f st x)) → ∀ st, P st → P (l.foldl f st) := by
  intro l
  induction l with
  | nil => intro _ st h; exact h
  | cons x xs ih =>
    intro hstep st hP
    exact ih (fun st' x' hx' => hstep st' x' (List.mem_cons_of_mem _ hx'))
      (f st x) (hstep st x (List.mem_cons_self _ _) hP)

/-- Helper: elements after `List.set` come from the old list or are the
written value. -/
theorem mem_of_mem_set {α : Type} (l : List α) (i : ℕ) (v : α) :
    ∀ x ∈ l.set i v, x ∈ l ∨ x = v := by
  induction l generalizing i with
  | nil => simp
  | cons y ys ih =>
    cases i with
    | zero =>
      intro x hx
      rcases List.mem_cons.1 hx with h | h
      · exact Or.inr h
      · exact Or.inl (List.mem_cons_of_mem _ h)
    | succ j =>
      intro x hx
      rcases List.mem_cons.1 hx with h | h
      · exact Or.inl (h ▸ List.mem_cons_self _ _)
      · rcases ih j x h with h' | h'
        · exact Or.inl (List.mem_cons_of_mem _ h')
        · exact Or.inr h'

/-- Helper: a `getD _ 0` read is bounded by any bound on the list elements. -/
theorem getD_le_of_forall (l : List ℕ) (D i : ℕ) (h : ∀ m ∈ l, m ≤ D) :
    l.getD i 0 ≤ D := by
  induction l generalizing i with
  | nil => simp [List.getD]
  | cons x xs ih =>
    cases i with
    | zero => exact h x (List.mem_cons_self _ _)
    | succ j => simpa using ih j (fun m hm => h m (List.mem_cons_of_mem _ hm))

/-- Helper: under `ub ≤ 1` bounds, `Case::get_upper_bound` never exceeds the
denominator. -/
theorem get_upper_bound_le (c : Case) (hub : ∀ iv ∈ c.bounds, iv.ub ≤ 1) (depth : ℕ) :
    c.get_upper_bound depth ≤ c.denominator := by
  unfold Case.get_upper_bound
  cases hgd : c.bounds.get? depth with
  | none => exact Nat.sub_le _ _
  | some iv =>
    have h1 : iv.ub ≤ 1 := hub iv (List.get?_mem hgd)
    have hq : iv.ub * (c.denominator : ℚ) ≤ (c.denominator : ℚ) := by
      calc iv.ub * (c.denominator : ℚ) ≤ 1 * (c.denominator : ℚ) :=
            mul_le_mul_of_nonneg_right h1 (by positivity)
        _ = (c.denominator : ℚ) := one_mul _
    have hz : ⌊iv.ub * (c.denominator : ℚ)⌋ ≤ (c.denominator : ℤ) := by
      calc ⌊iv.ub * (c.denominator : ℚ)⌋ ≤ ⌊((c.denominator : ℕ) : ℚ)⌋ :=
            Int.floor_le_floor hq
        _ = (c.denominator : ℤ) := Int.floor_natCast _
    exact Int.toNat_le.mpr hz

/-- Helper: `recordSet` preserves the numerator bound when the written value
obeys it. -/
theorem recordSet_numerators_le (D : ℕ) (st : SearchState) (i n : ℕ) (hn : n ≤ D)
    (hseq : ∀ m ∈ st.seq.numerators, m ≤ D) (hsets : ∀ p ∈ st.sets, p.2 ≤ D) :
    (∀ m ∈ (recordSet st i n).seq.numerators, m ≤ D) ∧
      (∀ p ∈ (recordSet st i n).sets, p.2 ≤ D) := by
  constructor
  · intro m hm
    rcases mem_of_mem_set st.seq.numerators i n m hm with h | h
    · exact hseq m h
    · exact h ▸ hn
  · intro p hp
    rcases List.mem_append.1 hp with h | h
    · exact hsets p h
    · rcases List.mem_singleton.1 h with rfl
      exact hn

/-- Helper: `simulate_rec` keeps every stored and recorded numerator at or
below the denominator, for any pruning outcome. -/
theorem simulate_rec_sets_le (ops : NumOps) (csat : Seq → List Restriction → ℕ → Bool)
    (b : Bounder) (c : Case) (hub : ∀ iv ∈ c.bounds, iv.ub ≤ 1) :
    ∀ (fuel depth : ℕ) (st : SearchState),
      (∀ m ∈ st.seq.numerators, m ≤ c.denominator) →
      (∀ p ∈ st.sets, p.2 ≤ c.denominator) →
      (∀ m ∈ (simulate_rec ops csat b c depth fuel st).seq.numerators,
          m ≤ c.denominator) ∧
        (∀ p ∈ (simulate_rec ops csat b c depth fuel st).sets, p.2 ≤ c.denominator) := by
  intro fuel
  induction fuel with
  | zero =>
    intro depth st hseq hsets
    rw [simulate_rec]
    by_cases hsat : st.seq.satisfies_restrictions c.restrictions depth = true
    · rw [if_pos hsat]
      by_cases hcould : st.seq.could_be_counterexample ops b c depth = true
      · rw [if_pos hcould]
        by_cases hdep : depth < c.max_depth
        · rw [if_pos hdep]
          exact ⟨hseq, hsets⟩
        · rw [if_neg hdep]
          exact ⟨hseq, hsets⟩
      · rw [if_neg hcould]
        exact ⟨hseq, hsets⟩
    · rw [if_neg hsat]
      exact ⟨hseq, hsets⟩
  | succ fuel' ih =>
    intro depth st hseq hsets
    rw [simulate_rec]
    by_cases hsat : st.seq.satisfies_restrictions c.restrictions depth = true
    · rw [if_pos hsat]
      by_cases hcould : st.seq.could_be_counterexample ops b c depth = true
      · rw [if_pos hcould]
        by_cases hdep : depth < c.max_depth
        · rw [if_pos hdep]
          have hfold : (∀ m ∈ (((List.range'
                (c.get_lower_bound depth)
                (min (st.seq.get_min_numerator (depth - 1)) (c.get_upper_bound depth) + 1 -
                  c.get_lower_bound depth)).foldl
              (fun acc numerator => simulate_rec ops csat b c (depth + 1) fuel'
                (recordSet acc depth numerator))
              ⟨st.seq, st.results, st.sets,
                st.calls ++ [(depth, st.seq.numerators)]⟩)).seq.numerators,
              m ≤ c.denominator) ∧
              (∀ p ∈ (((List.range'
                (c.get_lower_bound depth)
                (min (st.seq.get_min_numerator (depth - 1)) (c.get_upper_bound depth) + 1 -
                  c.get_lower_bound depth)).foldl
              (fun acc numerator => simulate_rec ops csat b c (depth + 1) fuel'
                (recordSet acc depth numerator))
              ⟨st.seq, st.results, st.sets,
                st.calls ++ [(depth, st.seq.numerators)]⟩)).sets, p.2 ≤ c.denominator) := by
            refine foldl_preserve_mem
              (fun (st' : SearchState) => (∀ m ∈ st'.seq.numerators, m ≤ c.denominator) ∧
                (∀ p ∈ st'.sets, p.2 ≤ c.denominator)) _ _ ?_ _ ⟨hseq, hsets⟩
            intro st' x hx hP
            have hxle : x ≤ c.denominator := by
              have := (List.mem_range'_1).1 hx
              have hhi : min (st.seq.get_min_numerator (depth - 1))
                  (c.get_upper_bound depth) ≤ c.denominator :=
                le_trans (min_le_right _ _) (get_upper_bound_le c hub depth)
              omega
            have hrec := recordSet_numerators_le c.denominator st' depth x hxle hP.1 hP.2
            exact ih (depth + 1) (recordSet st' depth x) hrec.1 hrec.2
          have h0 := recordSet_numerators_le c.denominator _ depth 0 (Nat.zero_le _)
            hfold.1 hfold.2
          exact h0
        · rw [if_neg hdep]
          exact ⟨hseq, hsets⟩
      · rw [if_neg hcould]
        exact ⟨hseq, hsets⟩
    · rw [if_neg hsat]
      exact ⟨hseq, hsets⟩

/-- C4, counterexample: on a case whose declared bound interval for `a_0` is
`[0, 1]` (denominator 2), `Case::get_upper_bound` returns the denominator
`D` itself, and `simulate`'s root loop stores numerator `D` into the
sequence — so the invariant "all numerators `< D`" fails. -/
theorem c4_counterexample :
    case0.get_upper_bound 0 = case0.denominator ∧
      (0, case0.denominator) ∈ (simulate ops0 csat0 b0 case0).sets := by
  with_unfolding_all decide

/-- C4 (amended): when every declared bound interval has `ub ≤ 1` (as every
case built by the case loader does, since declared bounds are intersected
into `[0,1]`), every numerator produced by `Case::get_upper_bound` and every
numerator ever assigned via `Seq::set` during `simulate`/`simulate_rec` is
`≤ D` — with `= D` reachable exactly through a declared interval with
`ub = 1`, so `< D` does not hold in general. -/
theorem c4_numerators_le_denominator (ops : NumOps)
    (csat : Seq → List Restriction → ℕ → Bool) (b : Bounder) (c : Case)
    (hub : ∀ iv ∈ c.bounds, iv.ub ≤ 1) :
    (∀ depth, c.get_upper_bound depth ≤ c.denominator) ∧
      (∀ p ∈ (simulate ops csat b c).sets, p.2 ≤ c.denominator) := by
  refine ⟨get_upper_bound_le c hub, ?_⟩
  unfold simulate
  have hres := foldl_preserve_mem
    (fun (st' : SearchState) => (∀ m ∈ st'.seq.numerators, m ≤ c.denominator) ∧
      (∀ p ∈ st'.sets, p.2 ≤ c.denominator))
    (fun acc numerator => simulate_rec ops csat b c 1 c.max_depth
      (recordSet acc 0 numerator))
    (List.range' (c.get_lower_bound 0) (c.get_upper_bound 0 + 1 - c.get_lower_bound 0))
    ?_ ⟨Seq.new 0 c.denominator c.max_depth, Results.new c, [], []⟩ ?_
  · exact hres.2
  · intro st' x hx hP
    have hxle : x ≤ c.denominator := by
      have := (List.mem_range'_1).1 hx
      have := get_upper_bound_le c hub 0
      omega
    have hrec := recordSet_numerators_le c.denominator st' 0 x hxle hP.1 hP.2
    exact simulate_rec_sets_le ops csat b c hub c.max_depth 1 _ hrec.1 hrec.2
  · constructor
    · intro m hm
      have := List.eq_of_mem_replicate hm
      omega
    · intro p hp
      simp at hp

/-- C4, witness: a root assignment of the amended bound on the concrete
case: numerator 1 is stored and is `≤ D = 2`. -/
theorem c4_witness :
    (0, 1) ∈ (simulate ops0 csat0 b0 case0).sets ∧ 1 ≤ case0.denominator :=
  ⟨by with_unfolding_all decide,
   (c4_numerators_le_denominator ops0 csat0 b0 case0
      (by with_unfolding_all decide)).2 (0, 1) (by with_unfolding_all decide)⟩

/-- Helper: `simulate_rec` records only `could_be_counterexample` call
depths inside `1 ..= max_depth`, with the sequence buffer always of length
`max_depth`. -/
theorem simulate_rec_calls_bounded (ops : NumOps)
    (csat : Seq → List Restriction → ℕ → Bool) (b : Bounder) (c : Case) :
    ∀ (fuel depth : ℕ) (st : SearchState), 1 ≤ depth → depth ≤ c.max_depth →
      st.seq.numerators.length = c.max_depth →
      (∀ p ∈ st.calls, 1 ≤ p.1 ∧ p.1 ≤ c.max_depth ∧ p.2.length = c.max_depth) →
      (simulate_rec ops csat b c depth fuel st).seq.numerators.length = c.max_depth ∧
        ∀ p ∈ (simulate_rec ops csat b c depth fuel st).calls,
          1 ≤ p.1 ∧ p.1 ≤ c.max_depth ∧ p.2.length = c.max_depth := by
  intro fuel
  induction fuel with
  | zero =>
    intro depth st h1 h2 hlen hcalls
    rw [simulate_rec]
    by_cases hsat : st.seq.satisfies_restrictions c.restrictions depth = true
    · rw [if_pos hsat]
      have hcalls1 : ∀ p ∈ st.calls ++ [(depth, st.seq.numerators)],
          1 ≤ p.1 ∧ p.1 ≤ c.max_depth ∧ p.2.length = c.max_depth := by
        intro p hp
        rcases List.mem_append.1 hp with h | h
        · exact hcalls p h
        · rcases List.mem_singleton.1 h with rfl
          exact ⟨h1, h2, hlen⟩
      by_cases hcould : st.seq.could_be_counterexample ops b c depth = true
      · rw [if_pos hcould]
        by_cases hdep : depth < c.max_depth
        · rw [if_pos hdep]
          exact ⟨hlen, hcalls1⟩
        · rw [if_neg hdep]
          exact ⟨hlen, hcalls1⟩
      · rw [if_neg hcould]
        exact ⟨hlen, hcalls1⟩
    · rw [if_neg hsat]
      exact ⟨hlen, hcalls⟩
  | succ fuel' ih =>
    intro depth st h1 h2 hlen hcalls
    rw [simulate_rec]
    by_cases hsat : st.seq.satisfies_restrictions c.restrictions depth = true
    · rw [if_pos hsat]
      have hcalls1 : ∀ p ∈ st.calls ++ [(depth, st.seq.numerators)],
          1 ≤ p.1 ∧ p.1 ≤ c.max_depth ∧ p.2.length = c.max_depth := by
        intro p hp
        rcases List.mem_append.1 hp with h | h
        · exact hcalls p h
        · rcases List.mem_singleton.1 h with rfl
          exact ⟨h1, h2, hlen⟩
      by_cases hcould : st.seq.could_be_counterexample ops b c depth = true
      · rw [if_pos hcould]
        by_cases hdep : depth < c.max_depth
        · rw [if_pos hdep]
          have hfold := foldl_preserve_mem
            (fun (st' : SearchState) => st'.seq.numerators.length = c.max_depth ∧
              ∀ p ∈ st'.calls, 1 ≤ p.1 ∧ p.1 ≤ c.max_depth ∧ p.2.length = c.max_depth)
            (fun acc numerator => simulate_rec ops csat b c (depth + 1) fuel'
              (recordSet acc depth numerator))
            (List.range' (c.get_lower_bound depth)
              (min (st.seq.get_min_numerator (depth - 1)) (c.get_upper_bound depth) + 1 -
                c.get_lower_bound depth))
            (by
              intro st' x hx hP
              refine ih (depth + 1) (recordSet st' depth x) (by omega) hdep ?_ hP.2
              simpa [recordSet, Seq.set] using hP.1)
            ⟨st.seq, st.results, st.sets, st.calls ++ [(depth, st.seq.numerators)]⟩
            ⟨hlen, hcalls1⟩
          refine ⟨?_, hfold.2⟩
          simpa [recordSet, Seq.set] using hfold.1
        · rw [if_neg hdep]
          exact ⟨hlen, hcalls1⟩
      · rw [if_neg hcould]
        exact ⟨hlen, hcalls1⟩
    · rw [if_neg hsat]
      exact ⟨hlen, hcalls⟩

/-- C10, counterexample: `could_be_counterexample` called with `depth = 0`
does **not** always panic — a sequence already rejected by the variance
check (`min_variance > 1`) returns `false` before the `numerators[depth - 1]`
read is reached. -/
theorem c10_counterexample :
    seqOverVar.could_be_counterexample_checked ops0 b0 caseVar 0 = some false := by
  with_unfolding_all decide

/-- C10 (amended): `could_be_counterexample` reads the entry at index
`depth - 1`, so with `depth = 0` it panics on every sequence **not already
rejected by the variance check** (`min_variance ≤ 1`); under the
precondition `1 ≤ depth ≤ length` no indexing panic is reachable (the
checked rendering returns the total value); and on a case with
`max_depth ≥ 1` every call made by `simulate` and `simulate_rec` has its
depth inside `1 ..= max_depth` with the sequence buffer of length
`max_depth`, satisfying the precondition. -/
theorem c10_depth_precondition :
    (∀ (ops : NumOps) (s : Seq) (b : Bounder) (c : Case), s.min_variance ≤ 1 →
        s.could_be_counterexample_checked ops b c 0 = none) ∧
      (∀ (ops : NumOps) (s : Seq) (b : Bounder) (c : Case) (depth : ℕ),
        1 ≤ depth → depth ≤ s.numerators.length →
        s.could_be_counterexample_checked ops b c depth =
          some (s.could_be_counterexample ops b c depth)) ∧
      (∀ (ops : NumOps) (csat : Seq → List Restriction → ℕ → Bool) (b : Bounder)
        (c : Case), 1 ≤ c.max_depth →
        ∀ p ∈ (simulate ops csat b c).calls,
          1 ≤ p.1 ∧ p.1 ≤ c.max_depth ∧ p.2.length = c.max_depth) := by
  refine ⟨?_, ?_, ?_⟩
  · intro ops s b c h
    unfold Seq.could_be_counterexample_checked
    rw [if_neg (not_lt.2 h), if_neg]
    rintro ⟨h10, -⟩
    omega
  · intro ops s b c depth h1 h2
    unfold Seq.could_be_counterexample_checked
    by_cases hv : 1 < s.min_variance
    · rw [if_pos hv, prune_of_min_variance s ops b c depth hv]
    · rw [if_neg hv, if_pos ⟨h1, by omega⟩]
  · intro ops csat b c hmd
    unfold simulate
    have hres := foldl_preserve_mem
      (fun (st' : SearchState) => st'.seq.numerators.length = c.max_depth ∧
        ∀ p ∈ st'.calls, 1 ≤ p.1 ∧ p.1 ≤ c.max_depth ∧ p.2.length = c.max_depth)
      (fun acc numerator => simulate_rec ops csat b c 1 c.max_depth
        (recordSet acc 0 numerator))
      (List.range' (c.get_lower_bound 0) (c.get_upper_bound 0 + 1 - c.get_lower_bound 0))
      (by
        intro st' x hx hP
        refine simulate_rec_calls_bounded ops csat b c c.max_depth 1
          (recordSet st' 0 x) (le_refl 1) hmd ?_ hP.2
        simpa [recordSet, Seq.set] using hP.1)
      ⟨Seq.new 0 c.denominator c.max_depth, Results.new c, [], []⟩
      ⟨by simp [Seq.new], by simp⟩
    exact hres.2

/-- C10, witness: the all-zero depth-2 sequence panics at depth 0 (value
`none`), and at depth 2 the checked call agrees with the total rendering. -/
theorem c10_witness :
    Seq.could_be_counterexample_checked (Seq.new 0 2 2) ops0 b0 caseVar 0 = none ∧
      Seq.could_be_counterexample_checked seqHighVar ops0 b0 caseVar 2 =
        some (seqHighVar.could_be_counterexample ops0 b0 caseVar 2) :=
  ⟨c10_depth_precondition.1 ops0 (Seq.new 0 2 2) b0 caseVar (by with_unfolding_all decide),
   c10_depth_precondition.2.1 ops0 seqHighVar b0 caseVar 2 (by decide)
     (by with_unfolding_all decide)⟩

/-- Helper: `updateSlots` leaves a slot untouched when its coefficient list
is longer than the inclusion depth. -/
theorem updateSlots_get?_of_long (d : ℕ) (ns : List ℕ) :
    ∀ (cl : List (List ℤ)) (slots : List (Option ℤ)) (i : ℕ) (coefs : List ℤ),
      cl.get? i = some coefs → d < coefs.length →
      (updateSlots d ns cl slots).get? i = slots.get? i := by
  intro cl
  induction cl with
  | nil => intro slots i coefs hget; simp at hget
  | cons cs cl' ih =>
    intro slots i coefs hget hlong
    cases slots with
    | nil => simp [updateSlots]
    | cons slot ss =>
      cases i with
      | zero =>
        simp only [List.get?] at hget
        injection hget with hget
        subst hget
        simp only [updateSlots, List.get?]
        rw [if_neg (by omega)]
      | succ j =>
        simp only [List.get?] at hget
        simp only [updateSlots, List.get?]
        exact ih ss j coefs hget hlong

/-- Helper: `get?` on a replicated list. -/
theorem get?_replicate_some {α : Type} (x : α) :
    ∀ (n i : ℕ), i < n → (List.replicate n x).get? i = some x := by
  intro n
  induction n with
  | zero => intro i h; omega
  | succ m ih =>
    intro i h
    cases i with
    | zero => rfl
    | succ j => simpa [List.replicate] using ih j (by omega)

/-- Helper: `getD` from a successful `get?`. -/
theorem getD_eq_of_get? {α : Type} (l : List α) (i : ℕ) (x d : α)
    (h : l.get? i = some x) : l.getD i d = x := by
  induction l generalizing i with
  | nil => simp at h
  | cons y ys ih =>
    cases i with
    | zero =>
      simp only [List.get?, Option.some.injEq] at h
      simp [h]
    | succ j =>
      simp only [List.get?] at h
      simpa using ih j h

/-- Helper: the `'find_coefs` scan finds a declared coefficient list and
returns an index pointing back at it. -/
theorem findCoefsIndex_spec (coefs : List ℤ) :
    ∀ (cl : List (List ℤ)), coefs ∈ cl →
      ∃ i, findCoefsIndex coefs cl = some i ∧ cl.get? i = some coefs := by
  intro cl
  induction cl with
  | nil => intro h; simp at h
  | cons cs cl' ih =>
    intro hmem
    by_cases heq : cs = coefs
    · exact ⟨0, by simp [findCoefsIndex, heq], by simp [heq]⟩
    · have hmem' : coefs ∈ cl' := by
        rcases List.mem_cons.1 hmem with h | h
        · exact absurd h.symm heq
        · exact h
      obtain ⟨i, hfind, hget⟩ := ih hmem'
      exact ⟨i + 1, by simp [findCoefsIndex, heq, hfind], by simpa using hget⟩

/-- Helper: `Extrema::include_seq` at depth `≤ max_depth` leaves the slot of
any longer-than-`max_depth` coefficient list empty. -/
theorem extrema_include_slots (c : Case) (e : Extrema) (s : Seq) (depth : ℕ)
    (hd : depth ≤ c.max_depth) (i : ℕ) (coefs : List ℤ)
    (hget : (sumCoefs c).get? i = some coefs) (hlong : c.max_depth < coefs.length)
    (he : e.sum_lower_bounds.get? i = some none) :
    (e.include_seq s (sumCoefs c) depth).sum_lower_bounds.get? i = some none := by
  simp only [Extrema.include_seq]
  rw [updateSlots_get?_of_long depth s.numerators (sumCoefs c) e.sum_lower_bounds i coefs
    hget (by omega)]
  exact he

/-- Helper: `Results::include_seq` at depth `≤ max_depth` preserves
`slotsNoneForLong`, whatever the subcase routing decides. -/
theorem results_include_preserves (c : Case) (csat : Seq → List Restriction → ℕ → Bool)
    (r : Results) (s : Seq) (depth : ℕ) (hd : depth ≤ c.max_depth)
    (hr : slotsNoneForLong c r) :
    slotsNoneForLong c (r.include_seq csat s depth) := by
  obtain ⟨hcoefs, hdef, hsub⟩ := hr
  refine ⟨hcoefs, ?_, ?_⟩
  · intro i coefs hget hlong
    simp only [Results.include_seq]
    by_cases hin : r.subcases.any (fun p => csat s p.1 depth) = true
    · rw [if_pos hin]
      exact hdef i coefs hget hlong
    · rw [if_neg hin]
      rw [hcoefs]
      exact extrema_include_slots c _ s depth hd i coefs hget hlong (hdef i coefs hget hlong)
  · intro p hp i coefs hget hlong
    simp only [Results.include_seq] at hp
    rcases List.mem_map.1 hp with ⟨p0, hp0, heq⟩
    by_cases hc : csat s p0.1 depth = true
    · rw [if_pos hc] at heq
      subst heq
      rw [hcoefs]
      exact extrema_include_slots c _ s depth hd i coefs hget hlong
        (hsub p0 hp0 i coefs hget hlong)
    · rw [if_neg hc] at heq
      subst heq
      exact hsub p0 hp0 i coefs hget hlong

/-- Helper: `simulate_rec` preserves `slotsNoneForLong` when entered at depth
`≤ max_depth`. -/
theorem simulate_rec_slots (ops : NumOps) (csat : Seq → List Restriction → ℕ → Bool)
    (b : Bounder) (c : Case) :
    ∀ (fuel depth : ℕ) (st : SearchState), depth ≤ c.max_depth →
      slotsNoneForLong c st.results →
      slotsNoneForLong c (simulate_rec ops csat b c depth fuel st).results := by
  intro fuel
  induction fuel with
  | zero =>
    intro depth st hd hP
    rw [simulate_rec]
    by_cases hsat : st.seq.satisfies_restrictions c.restrictions depth = true
    · rw [if_pos hsat]
      by_cases hcould : st.seq.could_be_counterexample ops b c depth = true
      · rw [if_pos hcould]
        by_cases hdep : depth < c.max_depth
        · rw [if_pos hdep]
          exact hP
        · rw [if_neg hdep]
          exact results_include_preserves c csat st.results st.seq depth hd hP
      · rw [if_neg hcould]
        exact hP
    · rw [if_neg hsat]
      exact hP
  | succ fuel' ih =>
    intro depth st hd hP
    rw [simulate_rec]
    by_cases hsat : st.seq.satisfies_restrictions c.restrictions depth = true
    · rw [if_pos hsat]
      by_cases hcould : st.seq.could_be_counterexample ops b c depth = true
      · rw [if_pos hcould]
        by_cases hdep : depth < c.max_depth
        · rw [if_pos hdep]
          exact foldl_preserve_mem
            (fun (st' : SearchState) => slotsNoneForLong c st'.results)
            (fun acc numerator => simulate_rec ops csat b c (depth + 1) fuel'
              (recordSet acc depth numerator))
            (List.range' (c.get_lower_bound depth)
              (min (st.seq.get_min_numerator (depth - 1)) (c.get_upper_bound depth) + 1 -
                c.get_lower_bound depth))
            (fun st' x _ hP' => ih (depth + 1) (recordSet st' depth x) hdep hP')
            ⟨st.seq, st.results, st.sets, st.calls ++ [(depth, st.seq.numerators)]⟩ hP
        · rw [if_neg hdep]
          exact results_include_preserves c csat st.results st.seq depth hd hP
      · rw [if_neg hcould]
        exact hP
    · rw [if_neg hsat]
      exact hP

/-- Helper: the whole search preserves the empty slot of every
longer-than-`max_depth` coefficient list. -/
theorem simulate_slots (ops : NumOps) (csat : Seq → List Restriction → ℕ → Bool)
    (b : Bounder) (c : Case) (hmd : 1 ≤ c.max_depth) :
    slotsNoneForLong c (simulate ops csat b c).results := by
  unfold simulate
  refine foldl_preserve_mem
    (fun (st' : SearchState) => slotsNoneForLong c st'.results)
    (fun acc numerator => simulate_rec ops csat b c 1 c.max_depth
      (recordSet acc 0 numerator))
    (List.range' (c.get_lower_bound 0) (c.get_upper_bound 0 + 1 - c.get_lower_bound 0))
    (fun st' x _ hP' => simulate_rec_slots ops csat b c c.max_depth 1
      (recordSet st' 0 x) hmd hP')
    _ ?_
  refine ⟨rfl, ?_, ?_⟩
  · intro i coefs hget hlong
    have hi : i < (sumCoefs c).length := by
      rcases List.get?_eq_some.1 hget with ⟨h, -⟩
      exact h
    exact get?_replicate_some none (sumCoefs c).length i hi
  · intro p hp i coefs hget hlong
    simp only [Results.new, List.mem_map] at hp
    rcases hp with ⟨sc, -, heq⟩
    subst heq
    have hi : i < (sumCoefs c).length := by
      rcases List.get?_eq_some.1 hget with ⟨h, -⟩
      exact h
    exact get?_replicate_some none (sumCoefs c).length i hi

/-- Helper: the running-minimum combine over all-empty slots is empty. -/
theorem fold_min_none (i : ℕ) :
    ∀ (L : List (List Restriction × Extrema)),
      (∀ p ∈ L, p.2.get_sum_lower_bound i = none) →
      L.foldl (fun acc p =>
        match acc, p.2.get_sum_lower_bound i with
        | some x, some y => some (min x y)
        | some x, none => some x
        | none, some x => some x
        | none, none => none) none = none := by
  intro L
  induction L with
  | nil => intro _; rfl
  | cons p L' ih =>
    intro h
    have hp := h p (List.mem_cons_self _ _)
    simp only [List.foldl, hp]
    exact ih (fun q hq => h q (List.mem_cons_of_mem _ hq))

/-- Helper: `Results::get_sum_lower_bound` once the scan has found index `i`. -/
theorem get_sum_lower_bound_found (r : Results) (coefs : List ℤ) (i : ℕ)
    (hfind : findCoefsIndex coefs r.sum_lower_bound_coefs = some i) :
    r.get_sum_lower_bound coefs =
      some ((r.subcases.foldl (fun acc p =>
        match acc, p.2.get_sum_lower_bound i with
        | some x, some y => some (min x y)
        | some x, none => some x
        | none, some x => some x
        | none, none => none)
        (r.default_subcase.get_sum_lower_bound i)).map
          (fun numerator => (numerator : ℚ) / (r.default_subcase.denominator : ℚ))) := by
  unfold Results.get_sum_lower_bound
  rw [hfind]

/-- C6: for every case declaring a `SumLowerBound` hypothesis whose
coefficient list is strictly longer than `max_depth` (≥ 1), after the search
completes the retrieved running-minimum sum for that hypothesis is absent
(`none`, not zero) and the hypothesis is reported not proved — every
terminal sequence is included at a depth `≤ max_depth`, which never reaches
the coefficient list's length. -/
theorem c6_long_sum_reports_absent (ops : NumOps)
    (csat : Seq → List Restriction → ℕ → Bool) (b : Bounder) (c : Case)
    (coefs : List ℤ) (bound : ℚ)
    (hmem : Hypothesis.SumLowerBound coefs bound ∈ c.hypotheses)
    (hlong : c.max_depth < coefs.length) (hmd : 1 ≤ c.max_depth) :
    (simulate ops csat b c).results.get_sum_lower_bound coefs = some none ∧
      hypothesisProved (simulate ops csat b c).results c.max_depth
        (Hypothesis.SumLowerBound coefs bound) = some false := by
  obtain ⟨hcoefs, hdef, hsub⟩ := simulate_slots ops csat b c hmd
  have hmemc : coefs ∈ sumCoefs c := by
    refine List.mem_filterMap.2 ⟨Hypothesis.SumLowerBound coefs bound, hmem, rfl⟩
  obtain ⟨i, hfind, hget⟩ := findCoefsIndex_spec coefs (sumCoefs c) hmemc
  have hmain : (simulate ops csat b c).results.get_sum_lower_bound coefs = some none := by
    rw [get_sum_lower_bound_found _ coefs i (by rw [hcoefs]; exact hfind)]
    have hdefi : (simulate ops csat b c).results.default_subcase.get_sum_lower_bound i =
        none := by
      unfold Extrema.get_sum_lower_bound
      exact getD_eq_of_get? _ i none none (hdef i coefs hget hlong)
    have hsubi : ∀ p ∈ (simulate ops csat b c).results.subcases,
        p.2.get_sum_lower_bound i = none := by
      intro p hp
      unfold Extrema.get_sum_lower_bound
      exact getD_eq_of_get? _ i none none (hsub p hp i coefs hget hlong)
    rw [hdefi, fold_min_none i _ hsubi]
    rfl
  refine ⟨hmain, ?_⟩
  simp only [hypothesisProved, hmain]

/-- C6, witness: the concrete case `caseSum` (one `SumLowerBound` hypothesis
with 2 coefficients, `max_depth = 1`) retrieves an absent sum and reports
the hypothesis not proved. -/
theorem c6_witness :
    (simulate ops0 csat0 b0 caseSum).results.get_sum_lower_bound [1, 1] = some none ∧
      hypothesisProved (simulate ops0 csat0 b0 caseSum).results caseSum.max_depth
        (Hypothesis.SumLowerBound [1, 1] 5) = some false :=
  c6_long_sum_reports_absent ops0 csat0 b0 caseSum [1, 1] 5
    (by with_unfolding_all decide) (by decide) (by decide)

/-- Helper: splitting a separator-free word gives the word back. -/
theorem splitOnChar_no_sep (c : Char) :
    ∀ (w : List Char), c ∉ w → splitOnChar c w = [w] := by
  intro w
  induction w with
  | nil => intro _; rfl
  | cons ch rest ih =>
    intro h
    have hch : ¬ ch = c := fun hc => h (hc ▸ List.mem_cons_self _ _)
    have hrest : c ∉ rest := fun hc => h (List.mem_cons_of_mem _ hc)
    simp only [splitOnChar, if_neg hch, ih hrest]

/-- Helper: splitting past the first separator peels the first word. -/
theorem splitOnChar_append (c : Char) :
    ∀ (w t : List Char), c ∉ w →
      splitOnChar c (w ++ c :: t) = w :: splitOnChar c t := by
  intro w
  induction w with
  | nil => intro t _; simp [splitOnChar]
  | cons ch rest ih =>
    intro t h
    have hch : ¬ ch = c := fun hc => h (hc ▸ List.mem_cons_self _ _)
    have hrest : c ∉ rest := fun hc => h (List.mem_cons_of_mem _ hc)
    rw [show (ch :: rest) ++ c :: t = ch :: (rest ++ c :: t) from rfl]
    simp only [splitOnChar, if_neg hch]
    rw [ih t hrest]

/-- Helper: splitting undoes joining for separator-free pieces. -/
theorem splitOnChar_joinChar (c : Char) :
    ∀ (ls : List (List Char)), ls ≠ [] → (∀ w ∈ ls, c ∉ w) →
      splitOnChar c (joinChar c ls) = ls := by
  intro ls
  induction ls with
  | nil => intro h _; exact absurd rfl h
  | cons w ws ih =>
    intro _ hfree
    cases ws with
    | nil => exact splitOnChar_no_sep c w (hfree w (List.mem_cons_self _ _))
    | cons w2 ws' =>
      have : joinChar c (w :: w2 :: ws') = w ++ c :: joinChar c (w2 :: ws') := rfl
      rw [this, splitOnChar_append c w _ (hfree w (List.mem_cons_self _ _)),
        ih (by simp) (fun x hx => hfree x (List.mem_cons_of_mem _ hx))]

/-- Helper: characters of a join come from the pieces or are the separator. -/
theorem mem_joinChar (c : Char) :
    ∀ (ls : List (List Char)) (ch : Char), ch ∈ joinChar c ls →
      ch = c ∨ ∃ w ∈ ls, ch ∈ w := by
  intro ls
  induction ls with
  | nil => intro ch h; simp [joinChar] at h
  | cons w ws ih =>
    intro ch h
    cases ws with
    | nil => exact Or.inr ⟨w, List.mem_cons_self _ _, h⟩
    | cons w2 ws' =>
      have : joinChar c (w :: w2 :: ws') = w ++ c :: joinChar c (w2 :: ws') := rfl
      rw [this] at h
      rcases List.mem_append.1 h with h | h
      · exact Or.inr ⟨w, List.mem_cons_self _ _, h⟩
      · rcases List.mem_cons.1 h with h | h
        · exact Or.inl h
        · rcases ih ch h with h' | ⟨w', hw', hch⟩
          · exact Or.inl h'
          · exact Or.inr ⟨w', List.mem_cons_of_mem _ hw', hch⟩

/-- Helper: a join headed by a non-empty piece is non-empty. -/
theorem joinChar_ne_nil (c : Char) (w : List Char) (ws : List (List Char)) (hw : w ≠ []) :
    joinChar c (w :: ws) ≠ [] := by
  cases ws with
  | nil => exact hw
  | cons w2 ws' =>
    have : joinChar c (w :: w2 :: ws') = w ++ c :: joinChar c (w2 :: ws') := rfl
    rw [this]
    simp

/-- Helper: the head of a join is the head of its first piece. -/
theorem head?_joinChar (c : Char) (w : List Char) (ws : List (List Char)) (hw : w ≠ []) :
    (joinChar c (w :: ws)).head? = w.head? := by
  cases ws with
  | nil => rfl
  | cons w2 ws' =>
    have : joinChar c (w :: w2 :: ws') = w ++ c :: joinChar c (w2 :: ws') := rfl
    rw [this]
    cases w with
    | nil => exact absurd rfl hw
    | cons a w' => rfl

/-- Helper: the last character of a join is the last of one of its pieces. -/
theorem getLast?_joinChar (c : Char) :
    ∀ (ls : List (List Char)), ls ≠ [] → (∀ w ∈ ls, w ≠ []) →
      ∃ w ∈ ls, (joinChar c ls).getLast? = w.getLast? := by
  intro ls
  induction ls with
  | nil => intro h _; exact absurd rfl h
  | cons w ws ih =>
    intro _ hne
    cases ws with
    | nil => exact ⟨w, List.mem_cons_self _ _, rfl⟩
    | cons w2 ws' =>
      obtain ⟨w', hw', heq⟩ := ih (by simp) (fun x hx => hne x (List.mem_cons_of_mem _ hx))
      have hjoin : joinChar c (w :: w2 :: ws') = w ++ c :: joinChar c (w2 :: ws') := rfl
      have hne2 : joinChar c (w2 :: ws') ≠ [] :=
        joinChar_ne_nil c w2 ws' (hne w2 (List.mem_cons_of_mem _ (List.mem_cons_self _ _)))
      refine ⟨w', List.mem_cons_of_mem _ hw', ?_⟩
      rw [hjoin, List.getLast?_append_of_ne_nil w (by simp),
        show (c :: joinChar c (w2 :: ws') : List Char) = [c] ++ joinChar c (w2 :: ws') from rfl,
        List.getLast?_append_of_ne_nil [c] hne2, heq]

/-- Helper: a character reached by `getLast?` is a member. -/
theorem mem_of_getLast? {α : Type} (l : List α) (a : α) (h : l.getLast? = some a) :
    a ∈ l := by
  have h' : l.reverse.head? = some a := by rw [List.head?_reverse]; exact h
  have := List.mem_of_mem_head? h'
  exact List.mem_reverse.1 this

/-- Helper: Rust's `trim` of a written stream (body with clean ends plus the
final newline) gives the body back. -/
theorem trimChars_clean (s : List Char) (hne : s ≠ [])
    (h1 : ∀ ch, s.head? = some ch → ¬ ch.isWhitespace)
    (h2 : ∀ ch, s.getLast? = some ch → ¬ ch.isWhitespace) :
    trimChars (s ++ ['\n']) = s := by
  cases s with
  | nil => exact absurd rfl hne
  | cons a t =>
    have ha : ¬ a.isWhitespace := h1 a rfl
    unfold trimChars
    rw [show ((a :: t) ++ ['\n'] : List Char) = a :: (t ++ ['\n']) from rfl]
    rw [List.dropWhile_cons, if_neg (by simpa using ha)]
    rw [show (a :: (t ++ ['\n']) : List Char) = (a :: t) ++ ['\n'] from rfl]
    rw [List.reverse_append]
    rw [show (['\n'] : List Char).reverse = ['\n'] from rfl]
    rw [show (['\n'] : List Char) ++ (a :: t).reverse = '\n' :: (a :: t).reverse from rfl]
    rw [List.dropWhile_cons, if_pos (by decide)]
    have hrev : (a :: t).reverse.head? = (a :: t).getLast? := List.head?_reverse _
    cases hrv : (a :: t).reverse with
    | nil => simp at hrv
    | cons b rev' =>
      have hb : ¬ b.isWhitespace := by
        refine h2 b ?_
        rw [← hrev, hrv]
        rfl
      rw [List.dropWhile_cons, if_neg (by simpa using hb), ← hrv,
        List.reverse_reverse]

/-- Helper: mapping a function that fixes every member is the identity. -/
theorem map_eq_self_of_mem {α : Type} (f : α → α) :
    ∀ (l : List α), (∀ x ∈ l, f x = x) → l.map f = l := by
  intro l
  induction l with
  | nil => intro _; rfl
  | cons x xs ih =>
    intro h
    simp only [List.map]
    rw [h x (List.mem_cons_self _ _), ih (fun y hy => h y (List.mem_cons_of_mem _ hy))]

/-- Helper: evaluating the reader once the line and header splits are known. -/
theorem bounder_from_file_eval (decQ : List Char → ℚ) (decN : List Char → ℕ)
    (contents header : List Char) (rest : List (List Char)) (t1 t2 t3 : List Char)
    (h1 : splitOnChar '\n' (trimChars contents) = header :: rest)
    (h2 : splitOnChar ',' header = [t1, t2, t3]) :
    bounder_from_file decQ decN contents =
      some (Bounder.new_manual (rest.map (fun line => (splitOnChar ',' line).map decQ))
        (decN t1) (decN t2) (decN t3)) := by
  unfold bounder_from_file
  rw [h1]
  show (match (splitOnChar ',' header).get? 0, (splitOnChar ',' header).get? 1,
      (splitOnChar ',' header).get? 2 with
    | some p0, some p1, some p2 =>
      some (Bounder.new_manual (rest.map (fun line => (splitOnChar ',' line).map decQ))
        (decN p0) (decN p1) (decN p2))
    | _, _, _ => none) = _
  rw [h2]
  rfl

/-- C7: round-trip persistence of the DP table.  Serializing a bounder with
`bounder_to_file` (header line `coef_gran,thresh_gran,max_bound`, then one
comma-separated row per coefficient bin) and loading the result with
`bounder_from_file` reconstructs the bounder exactly, so `get(a, cutoff)` of
the reloaded table equals the original's at every pair.  The number
rendering is abstracted: the encoders must produce non-empty
separator/whitespace-free tokens that their decoders invert, which is
exactly the behaviour of Rust's `to_string`/`parse` round trip on `f64` and
`usize` values, and every row must be non-empty (an empty row would make the
loader panic). -/
theorem c7_roundtrip (encQ : ℚ → List Char) (decQ : List Char → ℚ)
    (encN : ℕ → List Char) (decN : List Char → ℕ) (b : Bounder)
    (hQ : ∀ q ∈ b.bounds.join, decQ (encQ q) = q)
    (hQg : ∀ q ∈ b.bounds.join, goodTok (encQ q))
    (hN1 : decN (encN b.coef_gran) = b.coef_gran)
    (hN2 : decN (encN b.thresh_gran) = b.thresh_gran)
    (hN3 : decN (encN b.max_bound) = b.max_bound)
    (hN1g : goodTok (encN b.coef_gran))
    (hN2g : goodTok (encN b.thresh_gran))
    (hN3g : goodTok (encN b.max_bound))
    (hrows : ∀ row ∈ b.bounds, row ≠ []) :
    bounder_from_file decQ decN (bounder_to_file encQ encN b) = some b ∧
      ∀ b', bounder_from_file decQ decN (bounder_to_file encQ encN b) = some b' →
        ∀ (ops : NumOps) (a cutoff : ℚ), b'.get ops a cutoff = b.get ops a cutoff := by
  have hcomma : ¬ (',' : Char).isWhitespace := by decide
  have hnlws : ('\n' : Char).isWhitespace = true := by decide
  -- the serialized lines
  have hstream : bounder_to_file encQ encN b =
      joinChar '\n'
        (joinChar ',' [encN b.coef_gran, encN b.thresh_gran, encN b.max_bound] ::
          b.bounds.map (fun row => joinChar ',' (row.map encQ))) ++ ['\n'] := rfl
  -- goodness of every line
  have hheaderGood : ∀ ch ∈ joinChar ','
      [encN b.coef_gran, encN b.thresh_gran, encN b.max_bound], ¬ ch.isWhitespace := by
    intro ch hch
    rcases mem_joinChar ',' _ ch hch with h | ⟨w, hw, hchw⟩
    · rw [h]; exact hcomma
    · rcases List.mem_cons.1 hw with h | hw
      · exact ((hN1g.2 ch) (h ▸ hchw)).1
      rcases List.mem_cons.1 hw with h | hw
      · exact ((hN2g.2 ch) (h ▸ hchw)).1
      rcases List.mem_cons.1 hw with h | hw
      · exact ((hN3g.2 ch) (h ▸ hchw)).1
      · simp at hw
  have hrowGood : ∀ row ∈ b.bounds, ∀ ch ∈ joinChar ',' (row.map encQ),
      ¬ ch.isWhitespace := by
    intro row hrow ch hch
    rcases mem_joinChar ',' _ ch hch with h | ⟨w, hw, hchw⟩
    · rw [h]; exact hcomma
    · rcases List.mem_map.1 hw with ⟨q, hq, heq⟩
      have hqj : q ∈ b.bounds.join := List.mem_join_of_mem hrow hq
      exact ((hQg q hqj).2 ch (heq ▸ hchw)).1
  have hheader_ne : joinChar ','
      [encN b.coef_gran, encN b.thresh_gran, encN b.max_bound] ≠ [] :=
    joinChar_ne_nil ',' _ _ hN1g.1
  have hrow_ne : ∀ row ∈ b.bounds, joinChar ',' (row.map encQ) ≠ [] := by
    intro row hrow
    cases row with
    | nil => exact absurd rfl (hrows [] hrow)
    | cons q row' =>
      rw [List.map_cons]
      exact joinChar_ne_nil ',' _ _
        (hQg q (List.mem_join_of_mem hrow (List.mem_cons_self _ _))).1
  -- every line is non-empty with only non-whitespace characters
  have hlineGood : ∀ line ∈ (joinChar ','
        [encN b.coef_gran, encN b.thresh_gran, encN b.max_bound] ::
        b.bounds.map (fun row => joinChar ',' (row.map encQ))),
      line ≠ [] ∧ ∀ ch ∈ line, ¬ ch.isWhitespace := by
    intro line hline
    rcases List.mem_cons.1 hline with h | hline
    · exact h ▸ ⟨hheader_ne, hheaderGood⟩
    · rcases List.mem_map.1 hline with ⟨row, hrow, heq⟩
      exact heq ▸ ⟨hrow_ne row hrow, hrowGood row hrow⟩
  have hnoNl : ∀ line ∈ (joinChar ','
        [encN b.coef_gran, encN b.thresh_gran, encN b.max_bound] ::
        b.bounds.map (fun row => joinChar ',' (row.map encQ))),
      ('\n' : Char) ∉ line := by
    intro line hline hmem
    exact (hlineGood line hline).2 '\n' hmem hnlws
  -- trimming gives back the joined lines
  have hjoined_ne : joinChar '\n'
      (joinChar ',' [encN b.coef_gran, encN b.thresh_gran, encN b.max_bound] ::
        b.bounds.map (fun row => joinChar ',' (row.map encQ))) ≠ [] :=
    joinChar_ne_nil '\n' _ _ hheader_ne
  have htrim : trimChars (joinChar '\n'
        (joinChar ',' [encN b.coef_gran, encN b.thresh_gran, encN b.max_bound] ::
          b.bounds.map (fun row => joinChar ',' (row.map encQ))) ++ ['\n']) =
      joinChar '\n'
        (joinChar ',' [encN b.coef_gran, encN b.thresh_gran, encN b.max_bound] ::
          b.bounds.map (fun row => joinChar ',' (row.map encQ))) := by
    refine trimChars_clean _ hjoined_ne ?_ ?_
    · intro ch hch
      rw [head?_joinChar '\n' _ _ hheader_ne] at hch
      exact hheaderGood ch (List.mem_of_mem_head? hch)
    · intro ch hch
      obtain ⟨line, hline, heq⟩ := getLast?_joinChar '\n' _ (by simp)
        (fun w hw => (hlineGood w hw).1)
      rw [heq] at hch
      exact (hlineGood line hline).2 ch (mem_of_getLast? line ch hch)
  have hsplitN : splitOnChar '\n' (joinChar '\n'
        (joinChar ',' [encN b.coef_gran, encN b.thresh_gran, encN b.max_bound] ::
          b.bounds.map (fun row => joinChar ',' (row.map encQ)))) =
      joinChar ',' [encN b.coef_gran, encN b.thresh_gran, encN b.max_bound] ::
        b.bounds.map (fun row => joinChar ',' (row.map encQ)) :=
    splitOnChar_joinChar '\n' _ (by simp) hnoNl
  have hsplitH : splitOnChar ','
      (joinChar ',' [encN b.coef_gran, encN b.thresh_gran, encN b.max_bound]) =
      [encN b.coef_gran, encN b.thresh_gran, encN b.max_bound] := by
    refine splitOnChar_joinChar ',' _ (by simp) ?_
    intro w hw hmem
    rcases List.mem_cons.1 hw with h | hw
    · exact ((hN1g.2 ',' (h ▸ hmem)).2 rfl)
    rcases List.mem_cons.1 hw with h | hw
    · exact ((hN2g.2 ',' (h ▸ hmem)).2 rfl)
    rcases List.mem_cons.1 hw with h | hw
    · exact ((hN3g.2 ',' (h ▸ hmem)).2 rfl)
    · simp at hw
  have hmain : bounder_from_file decQ decN (bounder_to_file encQ encN b) = some b := by
    rw [hstream]
    rw [bounder_from_file_eval decQ decN _ _ _ _ _ _ (by rw [htrim, hsplitN]) hsplitH]
    have hrowsEq : (b.bounds.map (fun row => joinChar ',' (row.map encQ))).map
        (fun line => (splitOnChar ',' line).map decQ) = b.bounds := by
      rw [List.map_map]
      have : ∀ row ∈ b.bounds,
          ((fun line => (splitOnChar ',' line).map decQ) ∘
            (fun row => joinChar ',' (row.map encQ))) row = id row := by
        intro row hrow
        have hfree : ∀ w ∈ row.map encQ, (',' : Char) ∉ w := by
          intro w hw hmem
          rcases List.mem_map.1 hw with ⟨q, hq, heq⟩
          exact ((hQg q (List.mem_join_of_mem hrow hq)).2 ','
            (heq ▸ hmem)).2 rfl
        have hne : row.map encQ ≠ [] := by
          cases row with
          | nil => exact absurd rfl (hrows [] hrow)
          | cons q row' =>
            rw [List.map_cons]
            exact List.cons_ne_nil _ _
        show (splitOnChar ',' (joinChar ',' (row.map encQ))).map decQ = row
        rw [splitOnChar_joinChar ',' _ hne hfree, List.map_map]
        refine map_eq_self_of_mem _ row ?_
        intro q hq
        exact hQ q (List.mem_join_of_mem hrow hq)
      rw [List.map_congr_left this, List.map_id]
    rw [hrowsEq, hN1, hN2, hN3]
    rfl
  refine ⟨hmain, ?_⟩
  intro b' hb' ops a cutoff
  rw [hmain] at hb'
  injection hb' with hb'
  rw [← hb']

/-- C7, witness: the round trip on the concrete one-row bounder `bW` with
concrete token codecs. -/
theorem c7_witness :
    bounder_from_file decQw decNw (bounder_to_file encQw encNw bW) = some bW :=
  (c7_roundtrip encQw decQw encNw decNw bW (by with_unfolding_all decide)
    (by with_unfolding_all decide) (by with_unfolding_all decide)
    (by with_unfolding_all decide) (by with_unfolding_all decide)
    (by with_unfolding_all decide) (by with_unfolding_all decide)
    (by with_unfolding_all decide) (by with_unfolding_all decide)).1

end Rademacher
